import Mathlib

/-!
# goarraylru: an array-backed, bucketed pseudo-LRU cache

A shallow embedding of `goarraylru.go` and a verification of its specification.

Modelling conventions.

* Go's `uint` is taken to be 64 bits wide.  Values are natural numbers and every
  arithmetic operation that can wrap is reduced modulo `W = 2 ^ 64`.
* A `*Node` is an `Option (Node V)` (`none` is the nil pointer) and the slot array
  `[]*Node` is a list of them.  The operations never store one pointer in two slots
  on a path that returns, so in-place updates of a node are updates of its slot.
* Every `for` loop is a function that is structurally recursive on a fuel argument.
  An operation yields `Outcome.ret` when it returns, `Outcome.crash` when it hits a
  run-time panic (index out of range, nil dereference, division by zero, a slice length
  that `make` does not accept) and `Outcome.fuelOut` when the fuel is used up before it
  returns.  A call that yields `fuelOut` for every amount of fuel does not terminate.
* `Crc16` lives in another file of the package; it is a parameter of `Init`.
* `make([]*Node, Size)` panics (`makeslice: len out of range`) on a length it does not
  accept (`makeAccepts`): a `Size` of `2 ^ 63` or more, which is negative as an `int`,
  and a `Size` whose byte size exceeds the allocation limit of the run-time system.
  Memory is otherwise unbounded: running out of memory on an accepted length is not
  modelled.  Theorems about `Init` on arbitrary capacities say what `Init` does when
  `make` accepts `Size` and what it does when `make` does not.
* The eviction callback is an arbitrary Go function.  The model records whether the
  field is non-nil (`Evict`) and logs each invocation, in order, in `Calls`.
-/

namespace GoArrayLRU

/-- Modulus of 64-bit unsigned arithmetic. -/
def W : Nat := 2 ^ 64

/-- Wrapping addition `a + b`. -/
def uadd (a b : Nat) : Nat := (a + b) % W

/-- Wrapping subtraction `a - b` (for `b < W`). -/
def usub (a b : Nat) : Nat := (a + W - b) % W

/-- Wrapping multiplication `a * b`. -/
def umul (a b : Nat) : Nat := (a * b) % W

/-- Wrapping left shift by one, `a << 1`. -/
def ushl1 (a : Nat) : Nat := (a * 2) % W

/-- Right shift by one, `a >> 1`. -/
def ushr1 (a : Nat) : Nat := a / 2

/-- Result of running a piece of code with a given amount of fuel. -/
inductive Outcome (α : Type) where
  | ret (a : α)
  | crash
  | fuelOut
deriving DecidableEq

/-- Sequencing of outcomes. -/
def Outcome.bind {α β : Type} : Outcome α → (α → Outcome β) → Outcome β
  | .ret a, f => f a
  | .crash, _ => .crash
  | .fuelOut, _ => .fuelOut

/-- The record `Node`: `Index` is the stored key (`none` for a nil `*uint`). -/
structure Node (V : Type) where
  Index : Option Nat
  Value : V
deriving DecidableEq

/-- Second argument of the eviction callback (an `interface{}`): the evicted value in
key-stored mode, the evicted `*Node` itself in position-indexed mode. -/
inductive Arg (V : Type) where
  | value (v : V)
  | node (p : Option (Node V))
deriving DecidableEq

/-- The options `LRUOpts`; every field is a pointer, `none` is nil.  `Evict` points to
a func value, which is non-nil (`some true`) or nil (`some false`). -/
structure LRUOpts where
  Collisions : Option Nat
  BucketSize : Option Nat
  IndexedValues : Option Bool
  Evict : Option Bool

/-- The cache `LRU`.  `Hash` is `none` for a nil func, `Evict` tells whether the
callback field is non-nil, and `Calls` is the log of callback invocations. -/
structure LRU (V : Type) where
  Collisions : Nat
  Buckets : Nat
  Size : Nat
  Wrap : Bool
  Cache : List (Option (Node V))
  Hash : Option (Nat → Nat)
  Evict : Bool
  Evictable : Bool
  Calls : List (Nat × Arg V)

/-- The zero value of `LRU`. -/
def LRU.zero (V : Type) : LRU V :=
  { Collisions := 0, Buckets := 0, Size := 0, Wrap := false, Cache := [],
    Hash := none, Evict := false, Evictable := false, Calls := [] }

/-- Options with every field nil. -/
def LRUOpts.none : LRUOpts :=
  { Collisions := Option.none, BucketSize := Option.none,
    IndexedValues := Option.none, Evict := Option.none }

/-- Loop of `FactorOfTwo`: `for p < n { p <<= 1 }`. -/
def FactorOfTwoLoop (n : Nat) : Nat → Nat → Outcome Nat
  | 0, _ => .fuelOut
  | fuel + 1, p => if p < n then FactorOfTwoLoop n fuel (ushl1 p) else .ret p

/-- `FactorOfTwo(n)`. -/
def FactorOfTwo (fuel n : Nat) : Outcome Nat :=
  if n ≠ 0 ∧ (n &&& usub n 1) = 0 then .ret n else FactorOfTwoLoop n fuel 1

/-- Loop of `FactorOf`: `for n&(factor-1) != 0 { n <<= 1 }`. -/
def FactorOfLoop (factor : Nat) : Nat → Nat → Outcome Nat
  | 0, _ => .fuelOut
  | fuel + 1, n =>
    if (n &&& usub factor 1) ≠ 0 then FactorOfLoop factor fuel (ushl1 n) else .ret n

/-- `FactorOf(n, factor)`. -/
def FactorOf (fuel n factor : Nat) : Outcome Nat :=
  (FactorOfTwo fuel n).bind fun m => FactorOfLoop factor fuel m

/-- `MaskedHash(mask)`: the closure `n ↦ Crc16(n) & mask`. -/
def MaskedHash (Crc16 : Nat → Nat) (mask : Nat) : Nat → Nat :=
  fun n => Crc16 n &&& mask

/-- Loop of `Init`: `for Buckets > 65536 { Buckets >>= 1; Collisions <<= 1 }`; the
result is the pair `(Buckets, Collisions)`. -/
def InitLoop : Nat → Nat → Nat → Outcome (Nat × Nat)
  | 0, _, _ => .fuelOut
  | fuel + 1, buckets, collisions =>
    if buckets > 65536 then InitLoop fuel (ushr1 buckets) (ushl1 collisions)
    else .ret (buckets, collisions)

/-- The collision degree `Init` passes to `FactorOfTwo`. -/
def requested (opts : LRUOpts) : Nat :=
  match opts.Collisions, opts.BucketSize with
  | some c, _ => c
  | Option.none, some b => b
  | Option.none, Option.none => 4

/-- Largest byte size the allocator of the Go run-time system hands out on a 64-bit
platform (the constant `maxAlloc` of package `runtime`: 48 address bits). -/
def maxAlloc : Nat := 2 ^ 48

/-- Whether `make([]*Node, len)` accepts the `uint` length `len`, the check `makeslice`
of package `runtime` performs: converted to `int` the length must not be negative
(`len < 2 ^ 63`), and the byte size of `len` pointers, of 8 bytes each, must not exceed
`maxAlloc`.  On every other length `make` panics (`makeslice: len out of range`). -/
def makeAccepts (len : Nat) : Bool := decide (len < 2 ^ 63 ∧ len * 8 ≤ maxAlloc)

/-- The sizing part of `Init`, its code up to `lru.Size = lru.Buckets * lru.Collisions`:
the values given to `Buckets`, `Collisions` and `Size`, in this order. -/
def InitSizes (fuel max : Nat) (opts : LRUOpts) : Outcome (Nat × Nat × Nat) :=
  (FactorOfTwo fuel (requested opts)).bind fun collisions =>
  (FactorOf fuel max collisions).bind fun f =>
  if collisions = 0 then .crash else
  (InitLoop fuel (f / collisions) collisions).bind fun bc =>
  .ret (bc.1, bc.2, umul bc.1 bc.2)

/-- `lru.Init(max, opts)`, run on the receiver `lru`: the sizing part, then the
allocation `make([]*Node, lru.Size)`, which panics on a length it does not accept, then
the choice of the hash and of the callback. -/
def LRU.Init {V : Type} (Crc16 : Nat → Nat) (fuel : Nat) (lru : LRU V) (max : Nat)
    (opts : LRUOpts) : Outcome (LRU V) :=
  (InitSizes fuel max opts).bind fun sizes =>
  if makeAccepts sizes.2.2 then
    .ret
      { Collisions := sizes.2.1
        Buckets := sizes.1
        Size := sizes.2.2
        Wrap := match opts.IndexedValues with
          | some iv => !iv
          | Option.none => true
        Cache := List.replicate sizes.2.2 Option.none
        Hash := some (if sizes.1 = 65536 then Crc16 else MaskedHash Crc16 (usub sizes.1 1))
        Evict := match opts.Evict with
          | some e => e
          | Option.none => lru.Evict
        Evictable := opts.Evict.isSome
        Calls := lru.Calls }
  else .crash

/-- `Move(list, index, itemIndex, item)`.  The loop body never changes `itemIndex`. -/
def Move {V : Type} : Nat → List (Option (Node V)) → Nat → Nat → Option (Node V) →
    Outcome (List (Option (Node V)))
  | 0, _, _, _, _ => .fuelOut
  | fuel + 1, list, index, itemIndex, item =>
    if itemIndex > index then
      match list[usub itemIndex 1]? with
      | Option.none => .crash
      | some x =>
        if itemIndex < list.length then Move fuel (list.set itemIndex x) index itemIndex item
        else .crash
    else if index < list.length then .ret (list.set index item)
    else .crash

/-- The part of `Set` after its scan loop: the bucket is full, `page` is the record
read last and `ptr` the position after it. -/
def SetFull {V : Type} (fuel : Nat) (lru : LRU V) (index : Nat) (val : V)
    (pageStart ptr : Nat) (page : Option (Node V)) : Outcome (LRU V) :=
  if lru.Wrap then
    match page with
    | Option.none => .crash
    | some pg =>
      let fresh : Node V := { Index := some index, Value := val }
      let moved := (Move fuel (lru.Cache.set (usub ptr 1) (some fresh)) pageStart
        (usub ptr 1) (some fresh))
      if lru.Evict then
        match pg.Index with
        | Option.none => .crash
        | some i => moved.bind fun c =>
            .ret { lru with Cache := c, Calls := lru.Calls ++ [(i, Arg.value pg.Value)] }
      else moved.bind fun c => .ret { lru with Cache := c }
  else
    let calls := if lru.Evict then lru.Calls ++ [(0, Arg.node page)] else lru.Calls
    if usub ptr 1 < lru.Cache.length then
      (Move fuel (lru.Cache.set (usub ptr 1) (some { Index := Option.none, Value := val }))
        pageStart (usub ptr 1) page).bind fun c =>
        .ret { lru with Cache := c, Calls := calls }
    else .crash

/-- Scan loop of `Set` together with the code that follows it. -/
def SetLoop {V : Type} (lru : LRU V) (index : Nat) (val : V) (pageStart pageEnd : Nat) :
    Nat → Nat → Option (Node V) → Outcome (LRU V)
  | 0, _, _ => .fuelOut
  | fuel + 1, ptr, page =>
    if ptr < pageEnd then
      match lru.Cache[ptr]? with
      | Option.none => .crash
      | some Option.none =>
        let fresh : Node V :=
          if lru.Wrap then { Index := some index, Value := val }
          else { Index := Option.none, Value := val }
        (Move fuel lru.Cache pageStart ptr (some fresh)).bind fun c =>
          .ret { lru with Cache := c }
      | some (some pg) =>
        if pg.Index = some index then
          let upd : Node V := { pg with Value := val }
          (Move fuel (lru.Cache.set ptr (some upd)) pageStart ptr (some upd)).bind fun c =>
            .ret { lru with Cache := c }
        else SetLoop lru index val pageStart pageEnd fuel (uadd ptr 1) (some pg)
    else SetFull fuel lru index val pageStart ptr page

/-- `lru.Set(index, val)`. -/
def LRU.Set {V : Type} (fuel : Nat) (lru : LRU V) (index : Nat) (val : V) :
    Outcome (LRU V) :=
  match lru.Hash with
  | Option.none => .crash
  | some h =>
    let pageStart := umul lru.Collisions (h index)
    let pageEnd := uadd pageStart lru.Collisions
    SetLoop lru index val pageStart pageEnd fuel pageStart Option.none

/-- Scan loop of `Get`. -/
def GetLoop {V : Type} (lru : LRU V) (index : Nat) (pageStart pageEnd : Nat) :
    Nat → Nat → Outcome (LRU V × Option (Node V))
  | 0, _ => .fuelOut
  | fuel + 1, ptr =>
    if ptr < pageEnd then
      match lru.Cache[ptr]? with
      | Option.none => .crash
      | some Option.none => .ret (lru, Option.none)
      | some (some pg) =>
        if pg.Index = some index then
          (Move fuel lru.Cache pageStart (usub (uadd ptr 1) 1) (some pg)).bind fun c =>
            .ret ({ lru with Cache := c }, some pg)
        else GetLoop lru index pageStart pageEnd fuel (uadd ptr 1)
    else .ret (lru, Option.none)

/-- `lru.Get(index)`: the cache afterwards and the returned `*Node`. -/
def LRU.Get {V : Type} (fuel : Nat) (lru : LRU V) (index : Nat) :
    Outcome (LRU V × Option (Node V)) :=
  match lru.Hash with
  | Option.none => .crash
  | some h =>
    let pageStart := umul lru.Collisions (h index)
    let pageEnd := uadd pageStart lru.Collisions
    GetLoop lru index pageStart pageEnd fuel pageStart

/-- A call made by a client of the cache. -/
inductive Op (V : Type) where
  | set (k : Nat) (v : V)
  | get (k : Nat)

/-- One client call. -/
def LRU.step {V : Type} (fuel : Nat) (lru : LRU V) : Op V → Outcome (LRU V)
  | .set k v => lru.Set fuel k v
  | .get k => (lru.Get fuel k).bind fun r => .ret r.1

/-- A sequence of client calls, each with its own amount of fuel; every call has to
return for the next one to be made. -/
def LRU.run {V : Type} : LRU V → List (Nat × Op V) → Outcome (LRU V)
  | lru, [] => .ret lru
  | lru, (fuel, op) :: ops => (lru.step fuel op).bind fun l => l.run ops

/-- Closed form of the cache `Init` builds when the requested collision degree rounds
up to `2 ^ e0` and the requested capacity rounds up to `2 ^ e1`. -/
def initResult {V : Type} (Crc16 : Nat → Nat) (lru : LRU V) (opts : LRUOpts)
    (e0 e1 : Nat) : LRU V :=
  let d := max e1 e0 - e0
  let b := min d 16
  { Collisions := 2 ^ (e0 + (d - b))
    Buckets := 2 ^ b
    Size := 2 ^ (max e1 e0)
    Wrap := match opts.IndexedValues with
      | some iv => !iv
      | Option.none => true
    Cache := List.replicate (2 ^ (max e1 e0)) Option.none
    Hash := some (if 2 ^ b = 65536 then Crc16 else MaskedHash Crc16 (2 ^ b - 1))
    Evict := match opts.Evict with
      | some e => e
      | Option.none => lru.Evict
    Evictable := opts.Evict.isSome
    Calls := lru.Calls }

/-- Modelled from the spec: `Crc16` is defined in a file of the package that is not
among the sources; the spec only says it is a 16-bit checksum-style hash.  This
stand-in (reduction modulo `2 ^ 16`) serves to run the model on concrete inputs; every
general theorem takes `Crc16` as a parameter. -/
def crc16Sample (n : Nat) : Nat := n % 65536

/-- Some slot of the array stores key `k`. -/
def storesKey {V : Type} (cache : List (Option (Node V))) (k : Nat) : Prop :=
  ∃ s ∈ cache, s.bind Node.Index = some k

instance storesKeyDecidable {V : Type} (cache : List (Option (Node V))) (k : Nat) :
    Decidable (storesKey cache k) := by
  unfold storesKey
  infer_instance

/-- The sizing facts the operations rely on: a hash into `[0, Buckets)`, a slot array
of length `Size = Buckets * Collisions` that fits a machine word, and a non-empty
bucket. -/
def WellSized {V : Type} (lru : LRU V) : Prop :=
  ∃ h, lru.Hash = some h ∧ (∀ k, h k < lru.Buckets) ∧ lru.Cache.length = lru.Size ∧
    lru.Size = lru.Buckets * lru.Collisions ∧ lru.Size < W ∧ 0 < lru.Collisions

/-- What a call leaves alone: every field but `Cache` and `Calls`, and the length of
the slot array. -/
def Frame {V : Type} (s t : LRU V) : Prop :=
  t.Collisions = s.Collisions ∧ t.Buckets = s.Buckets ∧ t.Size = s.Size ∧
    t.Wrap = s.Wrap ∧ t.Hash = s.Hash ∧ t.Evict = s.Evict ∧
    t.Evictable = s.Evictable ∧ t.Cache.length = s.Cache.length

/-- Invariant of the states the operations reach: a non-empty slot is the first slot of
a bucket; in key-stored mode its record carries a key that hashes to this bucket, in
position-indexed mode it carries no key. -/
def FrontOnly {V : Type} (s : LRU V) : Prop :=
  ∀ (p : Nat) (nd : Node V), s.Cache[p]? = some (some nd) →
    (∃ b, p = s.Collisions * b) ∧
    (if s.Wrap then ∃ h k, s.Hash = some h ∧ nd.Index = some k ∧ s.Collisions * h k = p
      else nd.Index = none)

/-- Within every bucket no empty slot is followed by a non-empty slot. -/
def Contiguous {V : Type} (s : LRU V) : Prop :=
  ∀ (b i j : Nat) (nd : Node V), i < j → j < s.Collisions →
    s.Cache[s.Collisions * b + i]? = some none →
    s.Cache[s.Collisions * b + j]? ≠ some (some nd)

/-- No key is stored in more than one slot of the array. -/
def UniqueKeys {V : Type} (s : LRU V) : Prop :=
  ∀ (i j : Nat) (ni nj : Node V) (k : Nat),
    s.Cache[i]? = some (some ni) → s.Cache[j]? = some (some nj) →
    ni.Index = some k → nj.Index = some k → i = j

/-- A loop whose body shifts a variable left by one (`x <<= 1`), entered with
`x = start`, runs exactly `k` times and none of its shifts wraps around.  Here `cond j`
is the loop condition after `j` runs of the body, when `x` is `start` shifted `j` times:
the condition holds before each of the `k` shifts, the operand of each shift doubles to
less than `2 ^ 64`, and the condition fails after the `k`-th shift. -/
def NoWrapRun (cond : Nat → Prop) (start k : Nat) : Prop :=
  (∀ j, j < k → cond j ∧ ushl1^[j] start * 2 < W) ∧ ¬ cond k

theorem testBit_of_range {x e : Nat} (h1 : 2 ^ e ≤ x) (h2 : x < 2 ^ (e + 1)) :
    x.testBit e = true := by
  rw [Nat.testBit_to_div_mod]
  have hd : x / 2 ^ e = 1 := by
    apply Nat.div_eq_of_lt_le
    · simpa using h1
    · rw [pow_succ] at h2; linarith
  simp [hd]

theorem pow_two_of_land_pred {n : Nat} (h0 : n ≠ 0) (h : n &&& (n - 1) = 0) :
    ∃ e, n = 2 ^ e := by
  refine ⟨Nat.log 2 n, ?_⟩
  have hlo : 2 ^ Nat.log 2 n ≤ n := Nat.pow_log_le_self 2 h0
  have hhi : n < 2 ^ (Nat.log 2 n + 1) := Nat.lt_pow_succ_log_self (by decide) n
  by_contra hne
  have hlt : 2 ^ Nat.log 2 n < n := lt_of_le_of_ne hlo (Ne.symm hne)
  have t1 := testBit_of_range hlo hhi
  have t2 : (n - 1).testBit (Nat.log 2 n) = true :=
    testBit_of_range (by omega) (by omega)
  have t3 : (n &&& (n - 1)).testBit (Nat.log 2 n) = true := by
    rw [Nat.testBit_and, t1, t2]; rfl
  rw [h] at t3
  simp at t3

theorem land_pred_two_pow (e : Nat) : 2 ^ e &&& (2 ^ e - 1) = 0 := by
  rw [Nat.and_pow_two_sub_one_eq_mod]; exact Nat.mod_self _

theorem usub_one {n : Nat} (h0 : 0 < n) (hW : n < W) : usub n 1 = n - 1 := by
  unfold usub
  have : n + W - 1 = (n - 1) + W := by omega
  rw [this, Nat.add_mod_right, Nat.mod_eq_of_lt (by omega)]

theorem two_pow_lt_W {i : Nat} (h : i ≤ 63) : 2 ^ i < W := by
  unfold W
  exact Nat.pow_lt_pow_right (by decide) (by omega)

theorem ushl1_two_pow {i : Nat} (h : i < 63) : ushl1 (2 ^ i) = 2 ^ (i + 1) := by
  unfold ushl1
  rw [← pow_succ]
  exact Nat.mod_eq_of_lt (two_pow_lt_W (by omega))

theorem ushl1_two_pow_63 : ushl1 (2 ^ 63) = 0 := by
  unfold ushl1 W
  norm_num

theorem ushl1_zero : ushl1 0 = 0 := by
  unfold ushl1 W
  norm_num

theorem FactorOfTwoLoop_zero {n : Nat} (hn : 0 < n) (fuel : Nat) :
    FactorOfTwoLoop n fuel 0 = .fuelOut := by
  induction fuel with
  | zero => rfl
  | succ f ih => simp [FactorOfTwoLoop, hn, ushl1_zero, ih]

theorem FactorOfTwoLoop_ret {n : Nat} :
    ∀ (fuel i r : Nat), i ≤ 63 → (0 < i → 2 ^ (i - 1) < n) →
      FactorOfTwoLoop n fuel (2 ^ i) = .ret r →
      ∃ e, e ≤ 63 ∧ r = 2 ^ e ∧ n ≤ 2 ^ e ∧ (0 < e → 2 ^ (e - 1) < n) := by
  intro fuel
  induction fuel with
  | zero => intro i r _ _ h; simp [FactorOfTwoLoop] at h
  | succ f ih =>
    intro i r hi hlow h
    unfold FactorOfTwoLoop at h
    by_cases hlt : 2 ^ i < n
    · rw [if_pos hlt] at h
      by_cases h63 : i < 63
      · rw [ushl1_two_pow h63] at h
        exact ih (i + 1) r (by omega) (fun _ => by simpa using hlt) h
      · have : i = 63 := by omega
        subst this
        rw [ushl1_two_pow_63, FactorOfTwoLoop_zero (by omega)] at h
        cases h
    · rw [if_neg hlt] at h
      injection h with h
      exact ⟨i, hi, h.symm, by omega, hlow⟩

theorem FactorOfTwoLoop_terminates {n : Nat} (hn : n ≤ 2 ^ 63) :
    ∀ (fuel i : Nat), i ≤ 63 → 65 ≤ fuel + i →
      ∃ r, FactorOfTwoLoop n fuel (2 ^ i) = .ret r := by
  intro fuel
  induction fuel with
  | zero => intro i hi h; omega
  | succ f ih =>
    intro i hi hf
    unfold FactorOfTwoLoop
    by_cases hlt : 2 ^ i < n
    · rw [if_pos hlt]
      have h63 : i < 63 := by
        by_contra hc
        have : i = 63 := by omega
        subst this
        omega
      rw [ushl1_two_pow h63]
      exact ih (i + 1) (by omega) (by omega)
    · rw [if_neg hlt]; exact ⟨_, rfl⟩

theorem FactorOfTwoLoop_diverges {n : Nat} (hn : 2 ^ 63 < n) :
    ∀ (fuel i : Nat), i ≤ 63 → FactorOfTwoLoop n fuel (2 ^ i) = .fuelOut := by
  intro fuel
  induction fuel with
  | zero => intro i _; rfl
  | succ f ih =>
    intro i hi
    unfold FactorOfTwoLoop
    have hlt : 2 ^ i < n :=
      lt_of_le_of_lt (Nat.pow_le_pow_right (by decide) hi) hn
    rw [if_pos hlt]
    by_cases h63 : i < 63
    · rw [ushl1_two_pow h63]; exact ih (i + 1) (by omega)
    · have : i = 63 := by omega
      subst this
      rw [ushl1_two_pow_63]
      exact FactorOfTwoLoop_zero (by omega) f

theorem exp_le_63 {e : Nat} (h : 2 ^ e < W) : e ≤ 63 := by
  by_contra hc
  have : 2 ^ 64 ≤ 2 ^ e := Nat.pow_le_pow_right (by decide) (by omega)
  unfold W at h
  omega

/-- Whenever `FactorOfTwo` returns, the result is the least power of two that is at
least `n`. -/
theorem FactorOfTwo_ret {fuel n r : Nat} (hW : n < W) (h : FactorOfTwo fuel n = .ret r) :
    ∃ e, e ≤ 63 ∧ r = 2 ^ e ∧ n ≤ 2 ^ e ∧ ∀ j, n ≤ 2 ^ j → e ≤ j := by
  unfold FactorOfTwo at h
  by_cases hp : n ≠ 0 ∧ (n &&& usub n 1) = 0
  · rw [if_pos hp] at h
    injection h with h
    obtain ⟨h0, hl⟩ := hp
    rw [usub_one (Nat.pos_of_ne_zero h0) hW] at hl
    obtain ⟨e, he⟩ := pow_two_of_land_pred h0 hl
    subst h
    refine ⟨e, exp_le_63 (he ▸ hW), he, le_of_eq he, ?_⟩
    intro j hj
    rw [he] at hj
    exact (Nat.pow_le_pow_iff_right (by decide)).mp hj
  · rw [if_neg hp] at h
    obtain ⟨e, he, hr, hle, hmin⟩ :=
      FactorOfTwoLoop_ret fuel 0 r (by omega) (fun h => absurd h (by decide)) (by simpa using h)
    refine ⟨e, he, hr, hle, ?_⟩
    intro j hj
    by_contra hc
    have hpos : 0 < e := by omega
    have h1 := hmin hpos
    have h2 : 2 ^ j ≤ 2 ^ (e - 1) := Nat.pow_le_pow_right (by decide) (by omega)
    omega

theorem FactorOfTwo_terminates {fuel n : Nat} (hn : n ≤ 2 ^ 63) (hf : 65 ≤ fuel) :
    ∃ r, FactorOfTwo fuel n = .ret r := by
  unfold FactorOfTwo
  split
  · exact ⟨_, rfl⟩
  · simpa using FactorOfTwoLoop_terminates hn fuel 0 (by omega) (by omega)

theorem FactorOfTwo_diverges {n : Nat} (hn : 2 ^ 63 < n) (hW : n < W) (fuel : Nat) :
    FactorOfTwo fuel n = .fuelOut := by
  unfold FactorOfTwo
  have hp : ¬ (n ≠ 0 ∧ (n &&& usub n 1) = 0) := by
    rintro ⟨h0, hl⟩
    rw [usub_one (Nat.pos_of_ne_zero h0) hW] at hl
    obtain ⟨e, he⟩ := pow_two_of_land_pred h0 hl
    subst he
    have h1 : e ≤ 63 := exp_le_63 hW
    have h2 : 2 ^ e ≤ 2 ^ 63 := Nat.pow_le_pow_right (by decide) h1
    omega
  rw [if_neg hp]
  simpa using FactorOfTwoLoop_diverges hn fuel 0 (by omega)

theorem bind_eq_ret {α β : Type} {o : Outcome α} {f : α → Outcome β} {r : β} :
    o.bind f = .ret r ↔ ∃ a, o = .ret a ∧ f a = .ret r := by
  cases o <;> simp [Outcome.bind]

theorem land_mask_two_pow {i a : Nat} (ha : a ≤ 63) :
    (2 ^ i &&& usub (2 ^ a) 1) ≠ 0 ↔ i < a := by
  rw [usub_one (Nat.two_pow_pos _) (two_pow_lt_W ha), Nat.and_pow_two_sub_one_eq_mod]
  constructor
  · intro h
    by_contra hc
    exact h (Nat.mod_eq_zero_of_dvd (pow_dvd_pow 2 (by omega)))
  · intro h
    rw [Nat.mod_eq_of_lt (Nat.pow_lt_pow_right (by decide) h)]
    exact Nat.pos_iff_ne_zero.mp (Nat.two_pow_pos _)

theorem FactorOfLoop_spec {a : Nat} (ha : a ≤ 63) :
    ∀ (fuel i : Nat), i ≤ 63 →
      FactorOfLoop (2 ^ a) fuel (2 ^ i) = .ret (2 ^ (max i a)) ∨
      (FactorOfLoop (2 ^ a) fuel (2 ^ i) = .fuelOut ∧ fuel + i ≤ 64) := by
  intro fuel
  induction fuel with
  | zero => intro i hi; right; exact ⟨rfl, by omega⟩
  | succ f ih =>
    intro i hi
    unfold FactorOfLoop
    by_cases hlt : i < a
    · rw [if_pos ((land_mask_two_pow ha).mpr hlt), ushl1_two_pow (by omega)]
      rcases ih (i + 1) (by omega) with h | ⟨h, hf⟩
      · left
        rw [h, max_eq_right (by omega), max_eq_right (by omega)]
      · right; exact ⟨h, by omega⟩
    · rw [if_neg (fun h => hlt ((land_mask_two_pow ha).mp h))]
      left
      rw [max_eq_left (by omega)]

theorem InitLoop_spec :
    ∀ (fuel j a : Nat), j + a ≤ 63 →
      InitLoop fuel (2 ^ j) (2 ^ a) = .ret (2 ^ (min j 16), 2 ^ (a + (j - min j 16))) ∨
      (InitLoop fuel (2 ^ j) (2 ^ a) = .fuelOut ∧ fuel ≤ j) := by
  intro fuel
  induction fuel with
  | zero => intro j a _; right; exact ⟨rfl, by omega⟩
  | succ f ih =>
    intro j a hja
    unfold InitLoop
    have h16 : (65536 : Nat) = 2 ^ 16 := by norm_num
    by_cases hgt : 16 < j
    · have hc : 2 ^ j > 65536 := by
        rw [h16]; exact Nat.pow_lt_pow_right (by decide) hgt
      have hshr : ushr1 (2 ^ j) = 2 ^ (j - 1) := by
        unfold ushr1
        obtain ⟨k, rfl⟩ : ∃ k, j = k + 1 := ⟨j - 1, by omega⟩
        rw [pow_succ]; simp
      rw [if_pos hc, hshr, ushl1_two_pow (by omega)]
      rcases ih (j - 1) (a + 1) (by omega) with h | ⟨h, hf⟩
      · left
        rw [h]
        have e1 : min (j - 1) 16 = 16 := by omega
        have e2 : min j 16 = 16 := by omega
        have e3 : a + 1 + (j - 1 - 16) = a + (j - 16) := by omega
        rw [e1, e2, e3]
      · right; exact ⟨h, by omega⟩
    · have hc : ¬ 2 ^ j > 65536 := by
        rw [h16]
        have : 2 ^ j ≤ 2 ^ 16 := Nat.pow_le_pow_right (by decide) (by omega)
        omega
      rw [if_neg hc]
      left
      have e2 : min j 16 = j := by omega
      rw [e2]; simp

theorem FactorOfTwo_two_pow {e : Nat} (he : e ≤ 63) {fuel : Nat} (hfuel : 65 ≤ fuel) :
    FactorOfTwo fuel (2 ^ e) = .ret (2 ^ e) := by
  have hle : (2 : Nat) ^ e ≤ 2 ^ 63 := Nat.pow_le_pow_right (by decide) he
  obtain ⟨r, hr⟩ := @FactorOfTwo_terminates fuel _ hle hfuel
  obtain ⟨e1, _, rfl, h1, h2⟩ := FactorOfTwo_ret (two_pow_lt_W he) hr
  have ha : e1 ≤ e := h2 e (le_refl _)
  have hb : e ≤ e1 := (Nat.pow_le_pow_iff_right (by decide)).mp h1
  rw [hr, le_antisymm ha hb]

theorem InitSizes_of_exponents (fuel cap : Nat) (opts : LRUOpts) {e0 e1 : Nat}
    (h0 : e0 ≤ 63) (h1 : e1 ≤ 63)
    (hc : FactorOfTwo fuel (requested opts) = .ret (2 ^ e0))
    (hm : FactorOfTwo fuel cap = .ret (2 ^ e1)) :
    InitSizes fuel cap opts = .ret (2 ^ min (max e1 e0 - e0) 16,
      2 ^ (e0 + (max e1 e0 - e0 - min (max e1 e0 - e0) 16)), 2 ^ max e1 e0) ∨
    (InitSizes fuel cap opts = .fuelOut ∧ fuel ≤ 64) := by
  unfold InitSizes FactorOf
  rw [hc, hm]
  simp only [Outcome.bind]
  rcases FactorOfLoop_spec h0 fuel e1 h1 with hF | ⟨hF, hf⟩
  · rw [hF]
    simp only [Outcome.bind]
    have hne : (2 : Nat) ^ e0 ≠ 0 := Nat.pos_iff_ne_zero.mp (Nat.two_pow_pos _)
    rw [if_neg hne, Nat.pow_div (le_max_right e1 e0) (by decide)]
    rcases InitLoop_spec fuel (max e1 e0 - e0) e0 (by omega) with hI | ⟨hI, hf⟩
    · left
      rw [hI]
      simp only [Outcome.bind]
      have hb : min (max e1 e0 - e0) 16 + (e0 + (max e1 e0 - e0 - min (max e1 e0 - e0) 16))
          = max e1 e0 := by omega
      have hsize : umul (2 ^ min (max e1 e0 - e0) 16)
          (2 ^ (e0 + (max e1 e0 - e0 - min (max e1 e0 - e0) 16))) = 2 ^ (max e1 e0) := by
        unfold umul
        rw [← pow_add, hb]
        exact Nat.mod_eq_of_lt (two_pow_lt_W (by omega))
      rw [hsize]
    · right
      rw [hI]
      exact ⟨rfl, by omega⟩
  · right
    rw [hF]
    exact ⟨rfl, by omega⟩

theorem makeAccepts_two_pow (e : Nat) : makeAccepts (2 ^ e) = true ↔ e ≤ 45 := by
  unfold makeAccepts maxAlloc
  rw [decide_eq_true_iff]
  have h8 : (2 : Nat) ^ e * 8 = 2 ^ (e + 3) := by rw [pow_add]; norm_num
  rw [h8, Nat.pow_lt_pow_iff_right (by decide), Nat.pow_le_pow_iff_right (by decide)]
  omega

theorem makeAccepts_of_le {n : Nat} (h : 2 ^ 63 ≤ n) : makeAccepts n = false := by
  unfold makeAccepts
  rw [decide_eq_false_iff_not]
  omega

/-- What `Init` does once its sizing part has returned: it returns the cache of the
given sizes with empty slots when `make` accepts `Size`, and panics otherwise. -/
theorem Init_of_sizes {V : Type} (Crc16 : Nat → Nat) (fuel : Nat) (lru0 : LRU V)
    (cap : Nat) (opts : LRUOpts) {b c s : Nat}
    (h : InitSizes fuel cap opts = .ret (b, c, s)) :
    (makeAccepts s = true →
      ∃ lru, LRU.Init Crc16 fuel lru0 cap opts = .ret lru ∧ lru.Buckets = b ∧
        lru.Collisions = c ∧ lru.Size = s ∧ lru.Cache = List.replicate s none ∧
        lru.Hash = some (if b = 65536 then Crc16 else MaskedHash Crc16 (usub b 1))) ∧
    (makeAccepts s = false → LRU.Init Crc16 fuel lru0 cap opts = .crash) := by
  unfold LRU.Init
  rw [h]
  simp only [Outcome.bind]
  constructor
  · intro hs
    rw [if_pos hs]
    exact ⟨_, rfl, rfl, rfl, rfl, rfl, rfl⟩
  · intro hs
    rw [hs]
    rfl

/-- `Init` in terms of the exponents: when `make` accepts the slot count
`2 ^ max e1 e0` it returns the closed form, otherwise it panics. -/
theorem Init_of_exponents {V : Type} (Crc16 : Nat → Nat) (fuel : Nat) (lru0 : LRU V)
    (cap : Nat) (opts : LRUOpts) {e0 e1 : Nat} (h0 : e0 ≤ 63) (h1 : e1 ≤ 63)
    (hc : FactorOfTwo fuel (requested opts) = .ret (2 ^ e0))
    (hm : FactorOfTwo fuel cap = .ret (2 ^ e1)) :
    (makeAccepts (2 ^ max e1 e0) = true ∧
      LRU.Init Crc16 fuel lru0 cap opts = .ret (initResult Crc16 lru0 opts e0 e1)) ∨
    (makeAccepts (2 ^ max e1 e0) = false ∧
      LRU.Init Crc16 fuel lru0 cap opts = .crash) ∨
    (LRU.Init Crc16 fuel lru0 cap opts = .fuelOut ∧ fuel ≤ 64) := by
  unfold LRU.Init
  rcases InitSizes_of_exponents fuel cap opts h0 h1 hc hm with hS | ⟨hS, hf⟩
  · rw [hS]
    simp only [Outcome.bind]
    cases hacc : makeAccepts (2 ^ max e1 e0)
    · right; left
      exact ⟨rfl, rfl⟩
    · left
      refine ⟨rfl, ?_⟩
      rw [if_pos rfl, usub_one (Nat.two_pow_pos _) (two_pow_lt_W (by omega))]
      rfl
  · right; right
    rw [hS]
    exact ⟨rfl, hf⟩

/-- Whenever `Init` returns, the cache is the closed form `initResult` for the least
exponents `e0`, `e1` with `requested opts ≤ 2 ^ e0` and `max ≤ 2 ^ e1`. -/
theorem Init_ret {V : Type} {Crc16 : Nat → Nat} {fuel : Nat} {lru0 lru : LRU V}
    {cap : Nat} {opts : LRUOpts} (hmax : cap < W) (hreq : requested opts < W)
    (h : LRU.Init Crc16 fuel lru0 cap opts = .ret lru) :
    ∃ e0 e1, e0 ≤ 63 ∧ e1 ≤ 63 ∧
      FactorOfTwo fuel (requested opts) = .ret (2 ^ e0) ∧
      FactorOfTwo fuel cap = .ret (2 ^ e1) ∧
      requested opts ≤ 2 ^ e0 ∧ (∀ j, requested opts ≤ 2 ^ j → e0 ≤ j) ∧
      cap ≤ 2 ^ e1 ∧ (∀ j, cap ≤ 2 ^ j → e1 ≤ j) ∧
      lru = initResult Crc16 lru0 opts e0 e1 := by
  have h' := h
  unfold LRU.Init at h'
  obtain ⟨sizes, hs, _⟩ := bind_eq_ret.mp h'
  unfold InitSizes at hs
  obtain ⟨c, hc, hs⟩ := bind_eq_ret.mp hs
  obtain ⟨f, hf, _⟩ := bind_eq_ret.mp hs
  unfold FactorOf at hf
  obtain ⟨m, hm, _⟩ := bind_eq_ret.mp hf
  obtain ⟨e0, he0, rfl, hle0, hmin0⟩ := FactorOfTwo_ret hreq hc
  obtain ⟨e1, he1, rfl, hle1, hmin1⟩ := FactorOfTwo_ret hmax hm
  refine ⟨e0, e1, he0, he1, hc, hm, hle0, hmin0, hle1, hmin1, ?_⟩
  rcases Init_of_exponents Crc16 fuel lru0 cap opts he0 he1 hc hm
    with ⟨_, hI⟩ | ⟨_, hI⟩ | ⟨hI, _⟩
  · rw [hI] at h
    injection h with h
    exact h.symm
  · rw [hI] at h
    cases h
  · rw [hI] at h
    cases h

/-- With enough fuel, for every capacity and collision degree up to `2 ^ 63`, the
sizing part of `Init` returns the closed form, and `Init` itself returns the closed
form when `make` accepts the slot count, and panics otherwise. -/
theorem Init_cases {V : Type} (Crc16 : Nat → Nat) {fuel : Nat} (lru0 : LRU V)
    {cap : Nat} {opts : LRUOpts} (hmax : cap ≤ 2 ^ 63) (hreq : requested opts ≤ 2 ^ 63)
    (hfuel : 65 ≤ fuel) :
    ∃ e0 e1, e0 ≤ 63 ∧ e1 ≤ 63 ∧
      FactorOfTwo fuel (requested opts) = .ret (2 ^ e0) ∧
      FactorOfTwo fuel cap = .ret (2 ^ e1) ∧
      requested opts ≤ 2 ^ e0 ∧ (∀ j, requested opts ≤ 2 ^ j → e0 ≤ j) ∧
      cap ≤ 2 ^ e1 ∧ (∀ j, cap ≤ 2 ^ j → e1 ≤ j) ∧
      InitSizes fuel cap opts = .ret (2 ^ min (max e1 e0 - e0) 16,
        2 ^ (e0 + (max e1 e0 - e0 - min (max e1 e0 - e0) 16)), 2 ^ max e1 e0) ∧
      ((makeAccepts (2 ^ max e1 e0) = true ∧
          LRU.Init Crc16 fuel lru0 cap opts = .ret (initResult Crc16 lru0 opts e0 e1)) ∨
        (makeAccepts (2 ^ max e1 e0) = false ∧
          LRU.Init Crc16 fuel lru0 cap opts = .crash)) := by
  have hW : (2 : Nat) ^ 63 < W := two_pow_lt_W (le_refl _)
  obtain ⟨c, hc⟩ := @FactorOfTwo_terminates fuel _ hreq hfuel
  obtain ⟨m, hm⟩ := @FactorOfTwo_terminates fuel _ hmax hfuel
  obtain ⟨e0, he0, rfl, hle0, hmin0⟩ := FactorOfTwo_ret (lt_of_le_of_lt hreq hW) hc
  obtain ⟨e1, he1, rfl, hle1, hmin1⟩ := FactorOfTwo_ret (lt_of_le_of_lt hmax hW) hm
  refine ⟨e0, e1, he0, he1, hc, hm, hle0, hmin0, hle1, hmin1, ?_, ?_⟩
  · rcases InitSizes_of_exponents fuel cap opts he0 he1 hc hm with hS | ⟨_, hf⟩
    · exact hS
    · omega
  · rcases Init_of_exponents Crc16 fuel lru0 cap opts he0 he1 hc hm
      with hI | hI | ⟨_, hf⟩
    · exact Or.inl hI
    · exact Or.inr hI
    · omega

/-! ## The reposition primitive `Move` -/

/-- The only way `Move` returns: the item already sits at the front index, and the
effect is the single assignment `list[index] = item`. -/
theorem Move_ret {V : Type} :
    ∀ (fuel : Nat) (list : List (Option (Node V))) (index itemIndex : Nat)
      (item : Option (Node V)) (r : List (Option (Node V))),
      Move fuel list index itemIndex item = .ret r →
      itemIndex ≤ index ∧ index < list.length ∧ r = list.set index item := by
  intro fuel
  induction fuel with
  | zero => intro list index itemIndex item r h; simp [Move] at h
  | succ f ih =>
    intro list index itemIndex item r h
    unfold Move at h
    by_cases hgt : itemIndex > index
    · rw [if_pos hgt] at h
      cases hx : list[usub itemIndex 1]? with
      | none => rw [hx] at h; cases h
      | some x =>
        rw [hx] at h
        simp only at h
        by_cases hlen : itemIndex < list.length
        · rw [if_pos hlen] at h
          have := (ih _ index itemIndex item r h).1
          omega
        · rw [if_neg hlen] at h; cases h
    · rw [if_neg hgt] at h
      by_cases hlen : index < list.length
      · rw [if_pos hlen] at h
        injection h with h
        exact ⟨by omega, hlen, h.symm⟩
      · rw [if_neg hlen] at h; cases h

theorem Move_self {V : Type} (fuel : Nat) (list : List (Option (Node V))) (index : Nat)
    (item : Option (Node V)) (h : index < list.length) :
    Move (fuel + 1) list index index item = .ret (list.set index item) := by
  unfold Move
  rw [if_neg (lt_irrefl _), if_pos h]

/-- With the item strictly behind the front index (and inside the list) `Move` runs
out of any amount of fuel: its loop never ends. -/
theorem Move_diverges {V : Type} :
    ∀ (fuel : Nat) (list : List (Option (Node V))) (index itemIndex : Nat)
      (item : Option (Node V)),
      index < itemIndex → itemIndex < list.length → itemIndex < W →
      Move fuel list index itemIndex item = .fuelOut := by
  intro fuel
  induction fuel with
  | zero => intro list index itemIndex item _ _ _; rfl
  | succ f ih =>
    intro list index itemIndex item hlt hlen hW
    unfold Move
    rw [if_pos hlt, usub_one (by omega) hW]
    have hb : itemIndex - 1 < list.length := by omega
    rw [List.getElem?_eq_getElem hb]
    simp only
    rw [if_pos hlen]
    exact ih _ index itemIndex item hlt (by simpa using hlen) hW

/-! ## Single steps of `Set` and `Get` -/

theorem maskedHash_zero (Crc16 : Nat → Nat) (n : Nat) : MaskedHash Crc16 0 n = 0 := by
  simp [MaskedHash]

theorem getElem?_lt {α : Type} {l : List α} {i : Nat} {a : α} (h : l[i]? = some a) :
    i < l.length := by
  obtain ⟨hlt, _⟩ := List.getElem?_eq_some.mp h
  exact hlt

/-- An empty slot at the front of the bucket: `Set` stores the new record there. -/
theorem SetLoop_front_empty {V : Type} (lru : LRU V) (k : Nat) (v : V) (ps pe fuel : Nat)
    (page : Option (Node V)) (hlt : ps < pe) (hslot : lru.Cache[ps]? = some none) :
    SetLoop lru k v ps pe (fuel + 2) ps page = .ret { lru with
      Cache := lru.Cache.set ps (some (if lru.Wrap then { Index := some k, Value := v }
        else { Index := none, Value := v })) } := by
  unfold SetLoop
  rw [if_pos hlt, hslot]
  simp only
  rw [Move_self _ _ _ _ (getElem?_lt hslot)]
  rfl

/-- The key sits at the front of the bucket: `Set` overwrites the value in place. -/
theorem SetLoop_front_hit {V : Type} (lru : LRU V) (k : Nat) (v : V) (ps pe fuel : Nat)
    (page : Option (Node V)) (pg : Node V) (hlt : ps < pe)
    (hslot : lru.Cache[ps]? = some (some pg)) (hk : pg.Index = some k) :
    SetLoop lru k v ps pe (fuel + 2) ps page = .ret { lru with
      Cache := lru.Cache.set ps (some { pg with Value := v }) } := by
  unfold SetLoop
  rw [if_pos hlt, hslot]
  simp only
  rw [if_pos hk, Move_self _ _ _ _ (by simpa using getElem?_lt hslot), List.set_set]
  rfl

/-- A slot holding another key is skipped. -/
theorem SetLoop_skip {V : Type} (lru : LRU V) (k : Nat) (v : V) (ps pe fuel ptr : Nat)
    (page : Option (Node V)) (pg : Node V) (hlt : ptr < pe)
    (hslot : lru.Cache[ptr]? = some (some pg)) (hk : pg.Index ≠ some k) :
    SetLoop lru k v ps pe (fuel + 1) ptr page =
      SetLoop lru k v ps pe fuel (uadd ptr 1) (some pg) := by
  conv => lhs; unfold SetLoop
  rw [if_pos hlt, hslot]
  simp only
  rw [if_neg hk]

/-- The scan of `Set` finds an empty slot or the key behind the front of the bucket:
the call to `Move` does not terminate, and neither does `Set`. -/
theorem SetLoop_found_late_diverges {V : Type} (lru : LRU V) (k : Nat) (v : V)
    (ps pe ptr : Nat) (page : Option (Node V)) (h1 : ps < ptr) (h2 : ptr < pe)
    (hW : ptr < W)
    (hslot : lru.Cache[ptr]? = some none ∨
      ∃ pg, lru.Cache[ptr]? = some (some pg) ∧ pg.Index = some k) (fuel : Nat) :
    SetLoop lru k v ps pe fuel ptr page = .fuelOut := by
  cases fuel with
  | zero => rfl
  | succ f =>
    unfold SetLoop
    rw [if_pos h2]
    rcases hslot with hs | ⟨pg, hs, hk⟩
    · rw [hs]
      simp only
      rw [Move_diverges f _ ps ptr _ h1 (getElem?_lt hs) hW]
      rfl
    · rw [hs]
      simp only
      rw [if_pos hk, Move_diverges f _ ps ptr _ h1 (by simpa using getElem?_lt hs) hW]
      rfl

/-- A slot that is occupied by another key (or by a record without key) is skipped. -/
theorem GetLoop_skip {V : Type} (lru : LRU V) (k ps pe fuel ptr : Nat) (pg : Node V)
    (hlt : ptr < pe) (hslot : lru.Cache[ptr]? = some (some pg)) (hk : pg.Index ≠ some k) :
    GetLoop lru k ps pe (fuel + 1) ptr = GetLoop lru k ps pe fuel (uadd ptr 1) := by
  conv => lhs; unfold GetLoop
  rw [if_pos hlt, hslot]
  simp only
  rw [if_neg hk]

theorem usub_uadd_one {p : Nat} (h : p + 1 < W) : usub (uadd p 1) 1 = p := by
  have h1 : uadd p 1 = p + 1 := Nat.mod_eq_of_lt h
  rw [h1, usub_one (by omega) h]
  omega

/-- The key sits at the front of the bucket: `Get` returns its record and leaves the
cache as it is. -/
theorem GetLoop_front_hit {V : Type} (lru : LRU V) (k ps pe fuel : Nat) (pg : Node V)
    (hlt : ps < pe) (hW : ps + 1 < W)
    (hslot : lru.Cache[ps]? = some (some pg)) (hk : pg.Index = some k) :
    GetLoop lru k ps pe (fuel + 2) ps = .ret (lru, some pg) := by
  unfold GetLoop
  rw [if_pos hlt, hslot]
  simp only
  rw [if_pos hk, usub_uadd_one hW, Move_self _ _ _ _ (getElem?_lt hslot)]
  have : lru.Cache.set ps (some pg) = lru.Cache := by
    apply List.ext_getElem? 
    intro i
    by_cases hi : ps = i
    · subst hi; rw [List.getElem?_set_self (getElem?_lt hslot)]; exact hslot.symm
    · rw [List.getElem?_set_ne hi]
  rw [this]
  rfl

/-- The scan of `Get` finds the key behind the front of the bucket: the call to `Move`
does not terminate, and neither does `Get`. -/
theorem GetLoop_found_late_diverges {V : Type} (lru : LRU V) (k ps pe ptr : Nat)
    (pg : Node V) (h1 : ps < ptr) (h2 : ptr < pe) (hW : ptr + 1 < W)
    (hslot : lru.Cache[ptr]? = some (some pg)) (hk : pg.Index = some k) (fuel : Nat) :
    GetLoop lru k ps pe fuel ptr = .fuelOut := by
  cases fuel with
  | zero => rfl
  | succ f =>
    unfold GetLoop
    rw [if_pos h2, hslot]
    simp only
    rw [if_pos hk, usub_uadd_one hW,
      Move_diverges f _ ps ptr _ h1 (getElem?_lt hslot) (by omega)]
    rfl

/-! ## Runs on caches with a single bucket -/

theorem Init_eval {V : Type} (Crc16 : Nat → Nat) (lru0 : LRU V) (cap : Nat)
    (opts : LRUOpts) (e0 e1 : Nat) (h0 : e0 ≤ 45) (h1 : e1 ≤ 45)
    (hc : FactorOfTwo 70 (requested opts) = .ret (2 ^ e0))
    (hm : FactorOfTwo 70 cap = .ret (2 ^ e1)) :
    LRU.Init Crc16 70 lru0 cap opts = .ret (initResult Crc16 lru0 opts e0 e1) := by
  rcases Init_of_exponents Crc16 70 lru0 cap opts (show e0 ≤ 63 by omega)
    (show e1 ≤ 63 by omega) hc hm with ⟨_, h⟩ | ⟨hacc, _⟩ | ⟨_, hf⟩
  · exact h
  · have := (makeAccepts_two_pow (max e1 e0)).mpr (by omega)
    rw [this] at hacc
    cases hacc
  · omega

theorem Set_of_hash_zero {V : Type} (lru : LRU V) (h : Nat → Nat) (k : Nat) (v : V)
    (fuel : Nat) (hH : lru.Hash = some h) (hz : h k = 0) (hC : lru.Collisions < W) :
    lru.Set fuel k v = SetLoop lru k v 0 lru.Collisions fuel 0 none := by
  unfold LRU.Set
  rw [hH]
  simp only [hz]
  have e1 : umul lru.Collisions 0 = 0 := by simp [umul]
  have e2 : uadd 0 lru.Collisions = lru.Collisions := by
    simp [uadd, Nat.mod_eq_of_lt hC]
  rw [e1, e2]

theorem Get_of_hash_zero {V : Type} (lru : LRU V) (h : Nat → Nat) (k : Nat)
    (fuel : Nat) (hH : lru.Hash = some h) (hz : h k = 0) (hC : lru.Collisions < W) :
    lru.Get fuel k = GetLoop lru k 0 lru.Collisions fuel 0 := by
  unfold LRU.Get
  rw [hH]
  simp only [hz]
  have e1 : umul lru.Collisions 0 = 0 := by simp [umul]
  have e2 : uadd 0 lru.Collisions = lru.Collisions := by
    simp [uadd, Nat.mod_eq_of_lt hC]
  rw [e1, e2]

/-- C1 (round-trip), evaluated on the code.  `Init(1, {})` builds one bucket of four
slots in key-stored mode and `Set(1, a)` returns; in the state reached, `Set(2, b)`
finds its empty slot behind the front of the bucket and never returns, for any amount
of fuel, so no `Get(2)` follows it. -/
theorem roundtrip_set_never_returns {V : Type} (Crc16 : Nat → Nat) (a b : V) :
    ∃ s0 s1 : LRU V,
      LRU.Init Crc16 70 (LRU.zero V) 1 LRUOpts.none = .ret s0 ∧
      s0.Wrap = true ∧ s0.Collisions = 4 ∧ s0.Buckets = 1 ∧
      s0.Set 70 1 a = .ret s1 ∧
      ∀ fuel, s1.Set fuel 2 b = .fuelOut := by
  let s0 : LRU V := initResult Crc16 (LRU.zero V) LRUOpts.none 2 0
  let s1 : LRU V := { s0 with Cache := s0.Cache.set 0 (some { Index := some 1, Value := a }) }
  have hH0 : s0.Hash = some (MaskedHash Crc16 0) := rfl
  have hH1 : s1.Hash = some (MaskedHash Crc16 0) := rfl
  have hC : (4 : Nat) < W := by unfold W; norm_num
  refine ⟨s0, s1, Init_eval Crc16 _ 1 _ 2 0 (by omega) (by omega) rfl rfl, rfl, rfl, rfl,
    ?_, ?_⟩
  · rw [Set_of_hash_zero s0 _ 1 a 70 hH0 (maskedHash_zero Crc16 1) hC]
    exact SetLoop_front_empty s0 1 a 0 4 68 none (by decide) rfl
  · intro fuel
    rw [Set_of_hash_zero s1 _ 2 b fuel hH1 (maskedHash_zero Crc16 2) hC]
    cases fuel with
    | zero => rfl
    | succ f =>
      have hskip := SetLoop_skip s1 2 b 0 4 f 0 none { Index := some 1, Value := a }
        (by decide) rfl (by simp)
      have hdiv := SetLoop_found_late_diverges s1 2 b 0 4 1
        (some { Index := some 1, Value := a }) (by decide) (by decide)
        (by unfold W; norm_num) (Or.inl rfl) f
      exact hskip.trans hdiv

/-- C2 (termination), evaluated on the code.  Whenever the item position lies strictly
behind the front index (inside the list), `Move` uses up every amount of fuel: its loop
`for itemIndex > index` never changes `itemIndex`, so the call does not terminate. -/
theorem move_behind_front_never_terminates {V : Type} (list : List (Option (Node V)))
    (index itemIndex : Nat) (item : Option (Node V)) (hlt : index < itemIndex)
    (hlen : itemIndex < list.length) (hW : itemIndex < W) :
    ∀ fuel, Move fuel list index itemIndex item = .fuelOut := by
  intro fuel
  exact Move_diverges fuel list index itemIndex item hlt hlen hW

/-- Witness for C2: promoting the second slot of a two-slot list. -/
theorem move_behind_front_never_terminates_witness :
    (0 < 1 ∧ 1 < ([none, none] : List (Option (Node Nat))).length ∧ 1 < W) ∧
    ∀ fuel, Move fuel ([none, none] : List (Option (Node Nat))) 0 1
      (some { Index := some 7, Value := 0 }) = .fuelOut :=
  ⟨⟨by decide, by decide, by unfold W; norm_num⟩,
    move_behind_front_never_terminates _ 0 1 _ (by decide) (by decide)
      (by unfold W; norm_num)⟩

/-- C3 (bucket capacity bound), evaluated on the code.  `Init(8, {Collisions: 8, Evict})`
builds one bucket of eight slots with a callback; `Set(10, a)` returns without calling
it; the second insertion `Set(20, b)` of a distinct key of the same bucket never
returns, so the bucket is never filled and no eviction is ever reported. -/
theorem capacity_second_insert_never_returns {V : Type} (Crc16 : Nat → Nat) (a b : V) :
    ∃ s0 s1 : LRU V,
      LRU.Init Crc16 70 (LRU.zero V) 8
        { LRUOpts.none with Collisions := some 8, Evict := some true } = .ret s0 ∧
      s0.Wrap = true ∧ s0.Evict = true ∧ s0.Collisions = 8 ∧ s0.Buckets = 1 ∧
      s0.Set 70 10 a = .ret s1 ∧ s1.Calls = [] ∧
      ∀ fuel, s1.Set fuel 20 b = .fuelOut := by
  let s0 : LRU V := initResult Crc16 (LRU.zero V)
    { LRUOpts.none with Collisions := some 8, Evict := some true } 3 3
  let s1 : LRU V := { s0 with Cache := s0.Cache.set 0 (some { Index := some 10, Value := a }) }
  have hH0 : s0.Hash = some (MaskedHash Crc16 0) := rfl
  have hH1 : s1.Hash = some (MaskedHash Crc16 0) := rfl
  have hC : (8 : Nat) < W := by unfold W; norm_num
  refine ⟨s0, s1, Init_eval Crc16 _ 8 _ 3 3 (by omega) (by omega) rfl rfl, rfl, rfl, rfl,
    rfl, ?_, rfl, ?_⟩
  · rw [Set_of_hash_zero s0 _ 10 a 70 hH0 (maskedHash_zero Crc16 10) hC]
    exact SetLoop_front_empty s0 10 a 0 8 68 none (by decide) rfl
  · intro fuel
    rw [Set_of_hash_zero s1 _ 20 b fuel hH1 (maskedHash_zero Crc16 20) hC]
    cases fuel with
    | zero => rfl
    | succ f =>
      have hskip := SetLoop_skip s1 20 b 0 8 f 0 none { Index := some 10, Value := a }
        (by decide) rfl (by simp)
      have hdiv := SetLoop_found_late_diverges s1 20 b 0 8 1
        (some { Index := some 10, Value := a }) (by decide) (by decide)
        (by unfold W; norm_num) (Or.inl rfl) f
      exact hskip.trans hdiv

/-- C4 (recency promotion), evaluated on the code.  In the cache of
`Init(2, {Collisions: 2})`, with the two slots of its bucket occupied by keys 1 and 2,
`Get(2)` on the key in the last slot never returns: the promotion of that slot is a
call of `Move` with the item behind the front. -/
theorem promotion_get_never_returns {V : Type} (Crc16 : Nat → Nat) (a b : V) :
    ∃ s0 : LRU V,
      LRU.Init Crc16 70 (LRU.zero V) 2 { LRUOpts.none with Collisions := some 2 }
        = .ret s0 ∧
      s0.Wrap = true ∧ s0.Collisions = 2 ∧ s0.Buckets = 1 ∧
      ∀ fuel, LRU.Get fuel { s0 with Cache :=
        [some { Index := some 1, Value := a }, some { Index := some 2, Value := b }] } 2
        = .fuelOut := by
  let s0 : LRU V := initResult Crc16 (LRU.zero V)
    { LRUOpts.none with Collisions := some 2 } 1 1
  let s : LRU V := { s0 with Cache :=
    [some { Index := some 1, Value := a }, some { Index := some 2, Value := b }] }
  have hH : s.Hash = some (MaskedHash Crc16 0) := rfl
  have hC : (2 : Nat) < W := by unfold W; norm_num
  refine ⟨s0, Init_eval Crc16 _ 2 _ 1 1 (by omega) (by omega) rfl rfl, rfl, rfl, rfl, ?_⟩
  intro fuel
  show s.Get fuel 2 = .fuelOut
  rw [Get_of_hash_zero s _ 2 fuel hH (maskedHash_zero Crc16 2) hC]
  cases fuel with
  | zero => rfl
  | succ f =>
    have hskip := GetLoop_skip s 2 0 2 f 0 { Index := some 1, Value := a }
      (by decide) rfl (by simp)
    have hdiv := GetLoop_found_late_diverges s 2 0 2 1 { Index := some 2, Value := b }
      (by decide) (by decide) (by unfold W; norm_num) rfl rfl f
    exact hskip.trans hdiv

/-- C5 (idempotent update), evaluated on the code.  After `Init(3, {BucketSize: 3})`
(one bucket of four slots) and `Set(7, a)`, the first of the two calls `Set(9, v1)`,
`Set(9, v2)` never returns, whatever `v1` is. -/
theorem update_first_set_never_returns {V : Type} (Crc16 : Nat → Nat) (a : V) :
    ∃ s0 s1 : LRU V,
      LRU.Init Crc16 70 (LRU.zero V) 3 { LRUOpts.none with BucketSize := some 3 }
        = .ret s0 ∧
      s0.Wrap = true ∧ s0.Collisions = 4 ∧ s0.Buckets = 1 ∧
      s0.Set 70 7 a = .ret s1 ∧
      ∀ (fuel : Nat) (v1 : V), s1.Set fuel 9 v1 = .fuelOut := by
  let s0 : LRU V := initResult Crc16 (LRU.zero V)
    { LRUOpts.none with BucketSize := some 3 } 2 2
  let s1 : LRU V := { s0 with Cache := s0.Cache.set 0 (some { Index := some 7, Value := a }) }
  have hH0 : s0.Hash = some (MaskedHash Crc16 0) := rfl
  have hH1 : s1.Hash = some (MaskedHash Crc16 0) := rfl
  have hC : (4 : Nat) < W := by unfold W; norm_num
  refine ⟨s0, s1, Init_eval Crc16 _ 3 _ 2 2 (by omega) (by omega) rfl rfl, rfl, rfl, rfl,
    ?_, ?_⟩
  · rw [Set_of_hash_zero s0 _ 7 a 70 hH0 (maskedHash_zero Crc16 7) hC]
    exact SetLoop_front_empty s0 7 a 0 4 68 none (by decide) rfl
  · intro fuel v1
    rw [Set_of_hash_zero s1 _ 9 v1 fuel hH1 (maskedHash_zero Crc16 9) hC]
    cases fuel with
    | zero => rfl
    | succ f =>
      have hskip := SetLoop_skip s1 9 v1 0 4 f 0 none { Index := some 7, Value := a }
        (by decide) rfl (by simp)
      have hdiv := SetLoop_found_late_diverges s1 9 v1 0 4 1
        (some { Index := some 7, Value := a }) (by decide) (by decide)
        (by unfold W; norm_num) (Or.inl rfl) f
      exact hskip.trans hdiv

/-! ## What a returning call can change -/

theorem Frame.refl {V : Type} (s : LRU V) : Frame s s :=
  ⟨rfl, rfl, rfl, rfl, rfl, rfl, rfl, rfl⟩

theorem Frame.trans {V : Type} {s t u : LRU V} (h1 : Frame s t) (h2 : Frame t u) :
    Frame s u := by
  obtain ⟨a1, a2, a3, a4, a5, a6, a7, a8⟩ := h1
  obtain ⟨b1, b2, b3, b4, b5, b6, b7, b8⟩ := h2
  exact ⟨b1.trans a1, b2.trans a2, b3.trans a3, b4.trans a4, b5.trans a5, b6.trans a6,
    b7.trans a7, b8.trans a8⟩

theorem WellSized.of_frame {V : Type} {s t : LRU V} (h : Frame s t) (hs : WellSized s) :
    WellSized t := by
  obtain ⟨a1, a2, a3, a4, a5, a6, a7, a8⟩ := h
  obtain ⟨hf, h1, h2, h3, h4, h5, h6⟩ := hs
  refine ⟨hf, a5.trans h1, ?_, ?_, ?_, ?_, ?_⟩
  · intro k; rw [a2]; exact h2 k
  · rw [a8, a3]; exact h3
  · rw [a3, a2, a1]; exact h4
  · rw [a3]; exact h5
  · rw [a1]; exact h6

/-- Slots of the array after a returning `Set(k, _)`: old slots, slots with key `k`, and
slots without key. -/
theorem SetFull_ret {V : Type} {fuel : Nat} {s t : LRU V} {k : Nat} {v : V}
    {ps ptr : Nat} {page : Option (Node V)}
    (hpage : page = none ∨ page ∈ s.Cache)
    (h : SetFull fuel s k v ps ptr page = .ret t) :
    Frame s t ∧ ∀ x ∈ t.Cache,
      x ∈ s.Cache ∨ x.bind Node.Index = some k ∨ x.bind Node.Index = none := by
  unfold SetFull at h
  by_cases hw : s.Wrap = true
  · rw [if_pos hw] at h
    cases page with
    | none => cases h
    | some pg =>
      simp only at h
      have key : ∀ c, Move fuel (s.Cache.set (usub ptr 1)
          (some { Index := some k, Value := v })) ps (usub ptr 1)
          (some { Index := some k, Value := v }) = .ret c →
          c.length = s.Cache.length ∧ ∀ x ∈ c,
            x ∈ s.Cache ∨ x.bind Node.Index = some k ∨ x.bind Node.Index = none := by
        intro c hc
        obtain ⟨_, _, rfl⟩ := Move_ret _ _ _ _ _ _ hc
        refine ⟨by simp, ?_⟩
        intro x hx
        rcases List.mem_or_eq_of_mem_set hx with hx | rfl
        · rcases List.mem_or_eq_of_mem_set hx with hx | rfl
          · exact Or.inl hx
          · exact Or.inr (Or.inl rfl)
        · exact Or.inr (Or.inl rfl)
      by_cases he : s.Evict = true
      · rw [if_pos he] at h
        cases hi : pg.Index with
        | none => rw [hi] at h; cases h
        | some i =>
          rw [hi] at h
          simp only at h
          obtain ⟨c, hc, h⟩ := bind_eq_ret.mp h
          injection h with h
          subst h
          obtain ⟨hl, hm⟩ := key c hc
          exact ⟨⟨rfl, rfl, rfl, rfl, rfl, rfl, rfl, hl⟩, hm⟩
      · rw [if_neg he] at h
        obtain ⟨c, hc, h⟩ := bind_eq_ret.mp h
        injection h with h
        subst h
        obtain ⟨hl, hm⟩ := key c hc
        exact ⟨⟨rfl, rfl, rfl, rfl, rfl, rfl, rfl, hl⟩, hm⟩
  · rw [if_neg hw] at h
    simp only at h
    by_cases hlen : usub ptr 1 < s.Cache.length
    · rw [if_pos hlen] at h
      obtain ⟨c, hc, h⟩ := bind_eq_ret.mp h
      injection h with h
      subst h
      obtain ⟨_, _, rfl⟩ := Move_ret _ _ _ _ _ _ hc
      refine ⟨⟨rfl, rfl, rfl, rfl, rfl, rfl, rfl, by simp⟩, ?_⟩
      intro x hx
      rcases List.mem_or_eq_of_mem_set hx with hx | rfl
      · rcases List.mem_or_eq_of_mem_set hx with hx | rfl
        · exact Or.inl hx
        · exact Or.inr (Or.inr rfl)
      · rcases hpage with rfl | hp
        · exact Or.inr (Or.inr rfl)
        · exact Or.inl hp
    · rw [if_neg hlen] at h; cases h

theorem SetLoop_ret {V : Type} {s t : LRU V} {k : Nat} {v : V} {ps pe : Nat} :
    ∀ (fuel ptr : Nat) (page : Option (Node V)), (page = none ∨ page ∈ s.Cache) →
      SetLoop s k v ps pe fuel ptr page = .ret t →
      Frame s t ∧ ∀ x ∈ t.Cache,
        x ∈ s.Cache ∨ x.bind Node.Index = some k ∨ x.bind Node.Index = none := by
  intro fuel
  induction fuel with
  | zero => intro ptr page _ h; simp [SetLoop] at h
  | succ f ih =>
    intro ptr page hpage h
    unfold SetLoop at h
    by_cases hlt : ptr < pe
    · rw [if_pos hlt] at h
      cases hs : s.Cache[ptr]? with
      | none => rw [hs] at h; cases h
      | some slot =>
        cases slot with
        | none =>
          rw [hs] at h
          simp only at h
          obtain ⟨c, hc, h⟩ := bind_eq_ret.mp h
          injection h with h
          subst h
          obtain ⟨_, _, rfl⟩ := Move_ret _ _ _ _ _ _ hc
          refine ⟨⟨rfl, rfl, rfl, rfl, rfl, rfl, rfl, by simp⟩, ?_⟩
          intro x hx
          rcases List.mem_or_eq_of_mem_set hx with hx | rfl
          · exact Or.inl hx
          · by_cases hw : s.Wrap = true
            · rw [if_pos hw]; exact Or.inr (Or.inl rfl)
            · rw [if_neg hw]; exact Or.inr (Or.inr rfl)
        | some pg =>
          rw [hs] at h
          simp only at h
          by_cases hk : pg.Index = some k
          · rw [if_pos hk] at h
            obtain ⟨c, hc, h⟩ := bind_eq_ret.mp h
            injection h with h
            subst h
            obtain ⟨_, _, rfl⟩ := Move_ret _ _ _ _ _ _ hc
            refine ⟨⟨rfl, rfl, rfl, rfl, rfl, rfl, rfl, by simp⟩, ?_⟩
            intro x hx
            rcases List.mem_or_eq_of_mem_set hx with hx | rfl
            · rcases List.mem_or_eq_of_mem_set hx with hx | rfl
              · exact Or.inl hx
              · exact Or.inr (Or.inl hk)
            · exact Or.inr (Or.inl hk)
          · rw [if_neg hk] at h
            exact ih _ _ (Or.inr (List.getElem?_mem hs)) h
    · rw [if_neg hlt] at h
      exact SetFull_ret hpage h

theorem Set_ret {V : Type} {fuel : Nat} {s t : LRU V} {k : Nat} {v : V}
    (h : s.Set fuel k v = .ret t) :
    Frame s t ∧ ∀ x ∈ t.Cache,
      x ∈ s.Cache ∨ x.bind Node.Index = some k ∨ x.bind Node.Index = none := by
  unfold LRU.Set at h
  cases hH : s.Hash with
  | none => rw [hH] at h; cases h
  | some hf =>
    rw [hH] at h
    exact SetLoop_ret _ _ _ (Or.inl rfl) h

theorem GetLoop_ret {V : Type} {s t : LRU V} {k : Nat} {ps pe : Nat}
    {r : Option (Node V)} :
    ∀ (fuel ptr : Nat), GetLoop s k ps pe fuel ptr = .ret (t, r) →
      Frame s t ∧ t.Calls = s.Calls ∧ ∀ x ∈ t.Cache, x ∈ s.Cache := by
  intro fuel
  induction fuel with
  | zero => intro ptr h; simp [GetLoop] at h
  | succ f ih =>
    intro ptr h
    unfold GetLoop at h
    by_cases hlt : ptr < pe
    · rw [if_pos hlt] at h
      cases hs : s.Cache[ptr]? with
      | none => rw [hs] at h; cases h
      | some slot =>
        cases slot with
        | none =>
          rw [hs] at h
          simp only at h
          injection h with h
          injection h with h1 h2
          subst h1
          exact ⟨Frame.refl _, rfl, fun x hx => hx⟩
        | some pg =>
          rw [hs] at h
          simp only at h
          by_cases hk : pg.Index = some k
          · rw [if_pos hk] at h
            obtain ⟨c, hc, h⟩ := bind_eq_ret.mp h
            injection h with h
            injection h with h1 h2
            subst h1
            obtain ⟨_, _, rfl⟩ := Move_ret _ _ _ _ _ _ hc
            refine ⟨⟨rfl, rfl, rfl, rfl, rfl, rfl, rfl, by simp⟩, rfl, ?_⟩
            intro x hx
            rcases List.mem_or_eq_of_mem_set hx with hx | rfl
            · exact hx
            · exact List.getElem?_mem hs
          · rw [if_neg hk] at h
            exact ih _ h
    · rw [if_neg hlt] at h
      injection h with h
      injection h with h1 h2
      subst h1
      exact ⟨Frame.refl _, rfl, fun x hx => hx⟩

theorem Get_ret {V : Type} {fuel : Nat} {s t : LRU V} {k : Nat} {r : Option (Node V)}
    (h : s.Get fuel k = .ret (t, r)) :
    Frame s t ∧ t.Calls = s.Calls ∧ ∀ x ∈ t.Cache, x ∈ s.Cache := by
  unfold LRU.Get at h
  cases hH : s.Hash with
  | none => rw [hH] at h; cases h
  | some hf =>
    rw [hH] at h
    exact GetLoop_ret _ _ h

/-- Along a run that returns, the configuration is kept and every stored key is one
that was in the array before or the key of a `Set` of the run. -/
theorem run_ret {V : Type} :
    ∀ (ops : List (Nat × Op V)) (s t : LRU V), s.run ops = .ret t →
      Frame s t ∧ ∀ k, storesKey t.Cache k →
        storesKey s.Cache k ∨ ∃ f v, (f, Op.set k v) ∈ ops := by
  intro ops
  induction ops with
  | nil =>
    intro s t h
    simp only [LRU.run] at h
    injection h with h
    subst h
    exact ⟨Frame.refl _, fun k hk => Or.inl hk⟩
  | cons fop ops ih =>
    intro s t h
    obtain ⟨fuel, op⟩ := fop
    simp only [LRU.run] at h
    obtain ⟨m, hm, h⟩ := bind_eq_ret.mp h
    obtain ⟨hF2, hK2⟩ := ih m t h
    cases op with
    | set k0 v0 =>
      simp only [LRU.step] at hm
      obtain ⟨hF1, hK1⟩ := Set_ret hm
      refine ⟨hF1.trans hF2, ?_⟩
      intro k hk
      rcases hK2 k hk with ⟨x, hx, hxk⟩ | ⟨f, v, hv⟩
      · rcases hK1 x hx with hx | hx | hx
        · exact Or.inl ⟨x, hx, hxk⟩
        · rw [hx] at hxk
          injection hxk with hxk
          subst hxk
          exact Or.inr ⟨fuel, v0, List.mem_cons_self _ _⟩
        · rw [hx] at hxk; cases hxk
      · exact Or.inr ⟨f, v, List.mem_cons_of_mem _ hv⟩
    | get k0 =>
      simp only [LRU.step] at hm
      obtain ⟨r, hr, hm⟩ := bind_eq_ret.mp hm
      injection hm with hm
      obtain ⟨t1, r1⟩ := r
      simp only at hm
      subst hm
      obtain ⟨hF1, _, hK1⟩ := Get_ret hr
      refine ⟨hF1.trans hF2, ?_⟩
      intro k hk
      rcases hK2 k hk with ⟨x, hx, hxk⟩ | ⟨f, v, hv⟩
      · exact Or.inl ⟨x, hK1 x hx, hxk⟩
      · exact Or.inr ⟨f, v, List.mem_cons_of_mem _ hv⟩

/-- The closed form of `Init` is well sized, provided `Crc16` is a 16-bit hash in case
it is used unmasked. -/
theorem initResult_wellSized_of {V : Type} {Crc16 : Nat → Nat} (lru0 : LRU V)
    (opts : LRUOpts) {e0 e1 : Nat} (h0 : e0 ≤ 63) (h1 : e1 ≤ 63)
    (hcrc : 2 ^ min (max e1 e0 - e0) 16 = 65536 → ∀ n, Crc16 n < 65536) :
    WellSized (initResult Crc16 lru0 opts e0 e1) := by
  refine ⟨_, rfl, ?_, ?_, ?_, ?_, ?_⟩
  · intro k
    show (if 2 ^ min (max e1 e0 - e0) 16 = 65536 then Crc16
      else MaskedHash Crc16 (2 ^ min (max e1 e0 - e0) 16 - 1)) k
      < 2 ^ min (max e1 e0 - e0) 16
    by_cases hb : 2 ^ min (max e1 e0 - e0) 16 = 65536
    · rw [if_pos hb, hb]; exact hcrc hb k
    · rw [if_neg hb]
      unfold MaskedHash
      rw [Nat.and_pow_two_sub_one_eq_mod]
      exact Nat.mod_lt _ (Nat.two_pow_pos _)
  · simp [initResult]
  · show 2 ^ max e1 e0 = 2 ^ min (max e1 e0 - e0) 16 *
      2 ^ (e0 + (max e1 e0 - e0 - min (max e1 e0 - e0) 16))
    rw [← pow_add]
    congr 1
    omega
  · exact two_pow_lt_W (by omega)
  · exact Nat.two_pow_pos _

theorem initResult_wellSized {V : Type} {Crc16 : Nat → Nat}
    (hcrc : ∀ n, Crc16 n < 65536) (lru0 : LRU V) (opts : LRUOpts) {e0 e1 : Nat}
    (h0 : e0 ≤ 63) (h1 : e1 ≤ 63) :
    WellSized (initResult Crc16 lru0 opts e0 e1) :=
  initResult_wellSized_of lru0 opts h0 h1 (fun _ => hcrc)

theorem initResult_no_key {V : Type} (Crc16 : Nat → Nat) (lru0 : LRU V) (opts : LRUOpts)
    (e0 e1 k : Nat) : ¬ storesKey (initResult Crc16 lru0 opts e0 e1).Cache k := by
  rintro ⟨x, hx, hk⟩
  have : x = none := List.eq_of_mem_replicate hx
  subst this
  cases hk

/-- On a well-sized cache the bucket of a key lies inside the slot array and its
bounds are computed without wrap-around. -/
theorem bucket_bounds {V : Type} {s : LRU V} {h : Nat → Nat} (hH : s.Hash = some h)
    (hs : WellSized s) (k : Nat) :
    umul s.Collisions (h k) = s.Collisions * h k ∧
    uadd (umul s.Collisions (h k)) s.Collisions = s.Collisions * h k + s.Collisions ∧
    s.Collisions * h k + s.Collisions ≤ s.Size := by
  obtain ⟨h', hH', hlt, _, hsz, hW, _⟩ := hs
  rw [hH] at hH'
  injection hH' with hH'
  subst hH'
  have hle : s.Collisions * h k + s.Collisions ≤ s.Size := by
    rw [hsz]
    calc s.Collisions * h k + s.Collisions = (h k + 1) * s.Collisions := by ring
      _ ≤ s.Buckets * s.Collisions := Nat.mul_le_mul_right _ (hlt k)
  have e1 : umul s.Collisions (h k) = s.Collisions * h k :=
    Nat.mod_eq_of_lt (by omega)
  refine ⟨e1, ?_, hle⟩
  rw [e1]
  exact Nat.mod_eq_of_lt (by omega)

/-- A scan of `Get` over slots that do not store the key returns not-found and leaves
the cache untouched. -/
theorem GetLoop_miss {V : Type} (s : LRU V) (k ps pe : Nat)
    (hpe : pe ≤ s.Cache.length) (hW : pe < W) (hno : ¬ storesKey s.Cache k) :
    ∀ (fuel ptr : Nat), ptr ≤ pe → pe < fuel + ptr →
      GetLoop s k ps pe fuel ptr = .ret (s, none) := by
  intro fuel
  induction fuel with
  | zero => intro ptr hle hf; omega
  | succ f ih =>
    intro ptr _ hf
    unfold GetLoop
    by_cases hlt : ptr < pe
    · rw [if_pos hlt, List.getElem?_eq_getElem (by omega)]
      cases hx : s.Cache[ptr] with
      | none => rfl
      | some pg =>
        simp only
        have hmem : some pg ∈ s.Cache := by
          rw [← hx]; exact List.getElem_mem _
        have hk : pg.Index ≠ some k := fun hk => hno ⟨some pg, hmem, hk⟩
        rw [if_neg hk]
        have : uadd ptr 1 = ptr + 1 := Nat.mod_eq_of_lt (by omega)
        rw [this]
        exact ih (ptr + 1) (by omega) (by omega)
    · rw [if_neg hlt]

theorem crc16Sample_lt (n : Nat) : crc16Sample n < 65536 :=
  Nat.mod_lt _ (by decide)

/-- Every cache `Init` returns is well sized and empty. -/
theorem Init_wellSized {V : Type} {Crc16 : Nat → Nat} (hcrc : ∀ n, Crc16 n < 65536)
    {fuel : Nat} {lru0 lru : LRU V} {cap : Nat} {opts : LRUOpts} (hcap : cap < W)
    (hreq : requested opts < W) (h : LRU.Init Crc16 fuel lru0 cap opts = .ret lru) :
    WellSized lru ∧ ∀ k, ¬ storesKey lru.Cache k := by
  obtain ⟨e0, e1, h0, h1, _, _, _, _, _, _, rfl⟩ := Init_ret hcap hreq h
  exact ⟨initResult_wellSized hcrc lru0 opts h0 h1, initResult_no_key Crc16 lru0 opts e0 e1⟩

/-- On a well-sized cache that does not store `k`, `Get(k)` returns not-found after at
most `Collisions` slots and changes nothing. -/
theorem Get_miss {V : Type} {s : LRU V} (hs : WellSized s) {k : Nat}
    (hno : ¬ storesKey s.Cache k) {fuel : Nat} (hfuel : s.Collisions < fuel) :
    s.Get fuel k = .ret (s, none) := by
  obtain ⟨h, hH, _, hlen, _, hW, _⟩ := id hs
  obtain ⟨e1, e2, hle⟩ := bucket_bounds hH hs k
  unfold LRU.Get
  rw [hH]
  simp only
  rw [e2, e1]
  exact GetLoop_miss s k _ _ (by omega) (by omega) hno fuel _ (by omega) (by omega)

/-- An empty slot at the front of the key's bucket: `Set` returns and stores the new
record there. -/
theorem Set_front_empty {V : Type} {s : LRU V} {h : Nat → Nat} (hH : s.Hash = some h)
    (hs : WellSized s) (k : Nat) (v : V) (fuel : Nat)
    (hslot : s.Cache[s.Collisions * h k]? = some none) :
    s.Set (fuel + 2) k v = .ret { s with
      Cache := s.Cache.set (s.Collisions * h k)
        (some (if s.Wrap then { Index := some k, Value := v }
          else { Index := none, Value := v })) } := by
  obtain ⟨e1, e2, _⟩ := bucket_bounds hH hs k
  obtain ⟨_, _, _, _, _, _, hpos⟩ := hs
  have hloop : s.Set (fuel + 2) k v = SetLoop s k v (s.Collisions * h k)
      (s.Collisions * h k + s.Collisions) (fuel + 2) (s.Collisions * h k) none := by
    unfold LRU.Set
    rw [hH]
    simp only
    rw [e2, e1]
  rw [hloop]
  exact SetLoop_front_empty s k v (s.Collisions * h k) (s.Collisions * h k + s.Collisions)
    fuel none (by omega) hslot

/-- The key sits at the front of its bucket: `Get` returns its record and leaves the
cache as it is. -/
theorem Get_front_hit {V : Type} {s : LRU V} {h : Nat → Nat} (hH : s.Hash = some h)
    (hs : WellSized s) (k : Nat) (fuel : Nat) (pg : Node V)
    (hslot : s.Cache[s.Collisions * h k]? = some (some pg)) (hk : pg.Index = some k) :
    s.Get (fuel + 2) k = .ret (s, some pg) := by
  obtain ⟨e1, e2, hle⟩ := bucket_bounds hH hs k
  obtain ⟨_, _, _, _, _, hW, hpos⟩ := hs
  have hloop : s.Get (fuel + 2) k = GetLoop s k (s.Collisions * h k)
      (s.Collisions * h k + s.Collisions) (fuel + 2) (s.Collisions * h k) := by
    unfold LRU.Get
    rw [hH]
    simp only
    rw [e2, e1]
  rw [hloop]
  exact GetLoop_front_hit s k (s.Collisions * h k) (s.Collisions * h k + s.Collisions)
    fuel pg (by omega) (by omega) hslot hk

/-- C6 (miss behaviour).  Take any cache `s` reached from a returning `Init` by a run of
returning `Set`/`Get` calls none of which is `Set(k, _)`, with `Crc16` a 16-bit hash.
Then `Get(k)` returns, with any fuel above `Collisions`, the pair of the unchanged cache
(every slot and the log of callback invocations included) and nil. -/
theorem get_miss_is_pure {V : Type} (Crc16 : Nat → Nat) (hcrc : ∀ n, Crc16 n < 65536)
    (fuel0 : Nat) (lru0 s0 s : LRU V) (cap : Nat) (opts : LRUOpts)
    (hcap : cap < W) (hreq : requested opts < W) (ops : List (Nat × Op V)) (k : Nat)
    (hinit : LRU.Init Crc16 fuel0 lru0 cap opts = .ret s0)
    (hrun : s0.run ops = .ret s)
    (hk : ∀ f v, (f, Op.set k v) ∉ ops) :
    ∀ fuel, s.Collisions < fuel → s.Get fuel k = .ret (s, none) := by
  intro fuel hfuel
  obtain ⟨hws, hempty⟩ := Init_wellSized hcrc hcap hreq hinit
  obtain ⟨hF, hkeys⟩ := run_ret ops s0 s hrun
  have hno : ¬ storesKey s.Cache k := by
    intro hst
    rcases hkeys k hst with h | ⟨f, v, hv⟩
    · exact hempty k h
    · exact hk f v hv
  exact Get_miss (WellSized.of_frame hF hws) hno hfuel

/-- Witness for C6: after `Init(1, {})`, `Set(1, 10)` and `Get(1)`, a `Get(2)` misses. -/
theorem get_miss_is_pure_witness :
    ∃ s0 s : LRU Nat,
      LRU.Init crc16Sample 70 (LRU.zero Nat) 1 LRUOpts.none = .ret s0 ∧
      s0.run [(3, Op.set 1 10), (3, Op.get 1)] = .ret s ∧
      (∀ f v, (f, Op.set 2 v) ∉ [(3, Op.set 1 10), (3, Op.get 1)]) ∧
      s.Cache = [some { Index := some 1, Value := 10 }, none, none, none] ∧
      s.Get 5 2 = .ret (s, none) := by
  have hinit := Init_eval crc16Sample (LRU.zero Nat) 1 LRUOpts.none 2 0 (by omega)
    (by omega) rfl rfl
  have hrun : (initResult crc16Sample (LRU.zero Nat) LRUOpts.none 2 0).run
      [(3, Op.set 1 10), (3, Op.get 1)] = .ret { initResult crc16Sample (LRU.zero Nat)
        LRUOpts.none 2 0 with
          Cache := [some { Index := some 1, Value := 10 }, none, none, none] } := rfl
  have hk : ∀ f v, (f, Op.set 2 v) ∉ [(3, Op.set 1 (10 : Nat)), (3, Op.get 1)] := by
    intro f v hv
    simp at hv
  exact ⟨_, _, hinit, hrun, hk, rfl,
    get_miss_is_pure crc16Sample crc16Sample_lt 70 _ _ _ 1 LRUOpts.none
      (by unfold W; norm_num) (by unfold W; decide) _ 2 hinit hrun hk 5 (by decide)⟩

/-- C9 (hash range).  After a returning `Init`, with `Crc16` a 16-bit hash, the selected
hash is `Crc16` itself when `Buckets = 65536` and `Crc16` masked with `Buckets - 1`
otherwise; for every key its value is below `Buckets`, and the bucket bounds
`Collisions * Hash(k)` and `Collisions * Hash(k) + Collisions` are computed without
wrap-around and lie inside the slot array, whose length is `Size`. -/
theorem hash_in_bucket_range {V : Type} (Crc16 : Nat → Nat)
    (hcrc : ∀ n, Crc16 n < 65536) (fuel : Nat) (lru0 lru : LRU V) (cap : Nat)
    (opts : LRUOpts) (hcap : cap < W) (hreq : requested opts < W)
    (hinit : LRU.Init Crc16 fuel lru0 cap opts = .ret lru) :
    ∃ h, lru.Hash = some h ∧
      h = (if lru.Buckets = 65536 then Crc16 else MaskedHash Crc16 (lru.Buckets - 1)) ∧
      lru.Cache.length = lru.Size ∧
      ∀ k, h k < lru.Buckets ∧
        umul lru.Collisions (h k) = lru.Collisions * h k ∧
        uadd (umul lru.Collisions (h k)) lru.Collisions
          = lru.Collisions * h k + lru.Collisions ∧
        lru.Collisions * h k + lru.Collisions ≤ lru.Size := by
  obtain ⟨hws, _⟩ := Init_wellSized hcrc hcap hreq hinit
  obtain ⟨h, hH, hlt, hlen, _, _, _⟩ := id hws
  obtain ⟨e0, e1, _, _, _, _, _, _, _, _, hres⟩ := Init_ret hcap hreq hinit
  refine ⟨h, hH, ?_, hlen, fun k => ⟨hlt k, bucket_bounds hH hws k⟩⟩
  subst hres
  have : some h = some (if 2 ^ min (max e1 e0 - e0) 16 = 65536 then Crc16
      else MaskedHash Crc16 (2 ^ min (max e1 e0 - e0) 16 - 1)) := hH.symm
  injection this

/-- Witness for C9: `Init(16, {Collisions: 4})`. -/
theorem hash_in_bucket_range_witness :
    ∃ lru : LRU Nat,
      LRU.Init crc16Sample 70 (LRU.zero Nat) 16
        { LRUOpts.none with Collisions := some 4 } = .ret lru ∧
      lru.Buckets = 4 ∧ lru.Collisions = 4 ∧
      ∃ h, lru.Hash = some h ∧
        h = (if lru.Buckets = 65536 then crc16Sample
          else MaskedHash crc16Sample (lru.Buckets - 1)) ∧
        lru.Cache.length = lru.Size ∧
        ∀ k, h k < lru.Buckets ∧
          umul lru.Collisions (h k) = lru.Collisions * h k ∧
          uadd (umul lru.Collisions (h k)) lru.Collisions
            = lru.Collisions * h k + lru.Collisions ∧
          lru.Collisions * h k + lru.Collisions ≤ lru.Size := by
  have hinit := Init_eval crc16Sample (LRU.zero Nat) 16
    { LRUOpts.none with Collisions := some 4 } 2 4 (by omega) (by omega) rfl rfl
  exact ⟨_, hinit, rfl, rfl,
    hash_in_bucket_range crc16Sample crc16Sample_lt 70 _ _ 16 _
      (by unfold W; norm_num) (by unfold W; decide) hinit⟩

/-! ## Sizing -/

theorem FactorOf_of_exponents {fuel cap e0 e1 : Nat} (h0 : e0 ≤ 63) (h1 : e1 ≤ 63)
    (hfuel : 65 ≤ fuel) (hm : FactorOfTwo fuel cap = .ret (2 ^ e1)) :
    FactorOf fuel cap (2 ^ e0) = .ret (2 ^ max e1 e0) := by
  unfold FactorOf
  rw [hm]
  simp only [Outcome.bind]
  rcases FactorOfLoop_spec h0 fuel e1 h1 with h | ⟨_, hf⟩
  · exact h
  · omega

/-- C7 (sizing law), amended to capacities up to `2 ^ 63` and to lengths `make` accepts.
With enough fuel the sizing part of `Init(cap, {})` returns: it gives `Buckets`,
`Collisions` and `Size` values `b`, `c` and `b * c` with `b * c ≥ cap`, `b` and `c`
powers of two and `b ≤ 65536`.  When `make` accepts the length `b * c`, `Init` returns a
cache with these values, `Size = Buckets * Collisions`, and a slot array of length
`Size` all of whose slots are empty; when `make` does not accept it, as for every
capacity above `2 ^ 62`, `Init` panics.  And `Init(16, {Collisions: 4})` gives
`Collisions = 4`, `Buckets = 4`, `Size = 16`. -/
theorem sizing_law {V : Type} (Crc16 : Nat → Nat) (lru0 : LRU V) (cap : Nat)
    (hcap : cap ≤ 2 ^ 63) (fuel : Nat) (hfuel : 65 ≤ fuel) :
    (∃ b c, InitSizes fuel cap LRUOpts.none = .ret (b, c, b * c) ∧
      cap ≤ b * c ∧ (∃ a, c = 2 ^ a) ∧ (∃ a, b = 2 ^ a) ∧ b ≤ 65536 ∧
      (makeAccepts (b * c) = true →
        ∃ lru, LRU.Init Crc16 fuel lru0 cap LRUOpts.none = .ret lru ∧
          lru.Buckets = b ∧ lru.Collisions = c ∧
          lru.Size = lru.Buckets * lru.Collisions ∧
          lru.Cache.length = lru.Size ∧ ∀ x ∈ lru.Cache, x = none) ∧
      (makeAccepts (b * c) = false →
        LRU.Init Crc16 fuel lru0 cap LRUOpts.none = .crash) ∧
      (2 ^ 62 < cap → makeAccepts (b * c) = false)) ∧
    (∃ lru, LRU.Init Crc16 fuel lru0 16 { LRUOpts.none with Collisions := some 4 }
        = .ret lru ∧
      lru.Collisions = 4 ∧ lru.Buckets = 4 ∧ lru.Size = 16) := by
  constructor
  · have hreq : requested LRUOpts.none ≤ 2 ^ 63 := by
      show 4 ≤ 2 ^ 63
      norm_num
    obtain ⟨e0, e1, h0, h1, _, _, _, _, hle, hmin, hS, _⟩ :=
      Init_cases Crc16 lru0 hcap hreq hfuel
    have hprod : (2 : Nat) ^ min (max e1 e0 - e0) 16 *
        2 ^ (e0 + (max e1 e0 - e0 - min (max e1 e0 - e0) 16)) = 2 ^ max e1 e0 := by
      rw [← pow_add]
      congr 1
      omega
    rw [← hprod] at hS
    obtain ⟨hacc, hrej⟩ := Init_of_sizes Crc16 fuel lru0 cap LRUOpts.none hS
    refine ⟨_, _, hS, ?_, ⟨_, rfl⟩, ⟨_, rfl⟩, ?_, ?_, hrej, ?_⟩
    · rw [hprod]
      exact le_trans hle (Nat.pow_le_pow_right (by decide) (le_max_left _ _))
    · have : (65536 : Nat) = 2 ^ 16 := by norm_num
      rw [this]
      exact Nat.pow_le_pow_right (by decide) (min_le_right _ _)
    · intro ha
      obtain ⟨lru, hI, hb, hc, hs, hcache, _⟩ := hacc ha
      refine ⟨lru, hI, hb, hc, ?_, ?_, ?_⟩
      · rw [hs, hb, hc]
      · rw [hcache, hs, List.length_replicate]
      · intro x hx
        rw [hcache] at hx
        exact List.eq_of_mem_replicate hx
    · intro hbig
      apply makeAccepts_of_le
      rw [hprod]
      have h63 : e1 = 63 := by
        by_contra hne
        have : cap ≤ 2 ^ 62 :=
          le_trans hle (Nat.pow_le_pow_right (by decide) (by omega))
        omega
      exact Nat.pow_le_pow_right (by decide) (by omega)
  · rcases Init_of_exponents Crc16 fuel lru0 16
      { LRUOpts.none with Collisions := some 4 } (show 2 ≤ 63 by omega)
      (show 4 ≤ 63 by omega) rfl rfl with ⟨_, h⟩ | ⟨hacc, _⟩ | ⟨_, hf⟩
    · exact ⟨_, h, rfl, rfl, rfl⟩
    · have := (makeAccepts_two_pow (max 4 2)).mpr (by decide)
      rw [this] at hacc
      cases hacc
    · omega

/-- Witness for C7: capacity 100, where `make` accepts the 128 slots and `Init` returns
32 buckets of 4 slots. -/
theorem sizing_law_witness :
    (100 ≤ 2 ^ 63 ∧ 65 ≤ 70) ∧
    InitSizes 70 100 LRUOpts.none = .ret (32, 4, 128) ∧ makeAccepts 128 = true ∧
    (∃ lru : LRU Nat, LRU.Init crc16Sample 70 (LRU.zero Nat) 100 LRUOpts.none = .ret lru ∧
      lru.Buckets = 32 ∧ lru.Collisions = 4 ∧ lru.Size = 128 ∧
      lru.Cache = List.replicate 128 none) ∧
    ((∃ b c, InitSizes 70 100 LRUOpts.none = .ret (b, c, b * c) ∧
      100 ≤ b * c ∧ (∃ a, c = 2 ^ a) ∧ (∃ a, b = 2 ^ a) ∧ b ≤ 65536 ∧
      (makeAccepts (b * c) = true →
        ∃ lru, LRU.Init crc16Sample 70 (LRU.zero Nat) 100 LRUOpts.none = .ret lru ∧
          lru.Buckets = b ∧ lru.Collisions = c ∧
          lru.Size = lru.Buckets * lru.Collisions ∧
          lru.Cache.length = lru.Size ∧ ∀ x ∈ lru.Cache, x = none) ∧
      (makeAccepts (b * c) = false →
        LRU.Init crc16Sample 70 (LRU.zero Nat) 100 LRUOpts.none = .crash) ∧
      (2 ^ 62 < 100 → makeAccepts (b * c) = false)) ∧
    (∃ lru : LRU Nat, LRU.Init crc16Sample 70 (LRU.zero Nat) 16
        { LRUOpts.none with Collisions := some 4 } = .ret lru ∧
      lru.Collisions = 4 ∧ lru.Buckets = 4 ∧ lru.Size = 16)) :=
  ⟨⟨by norm_num, by decide⟩, rfl, by decide,
    ⟨_, Init_eval crc16Sample (LRU.zero Nat) 100 LRUOpts.none 2 7 (by omega) (by omega)
      rfl rfl, rfl, rfl, rfl, rfl⟩,
    sizing_law crc16Sample (LRU.zero Nat) 100 (by norm_num) 70 (by decide)⟩

/-- Counterexample to C7 as stated, at two capacities.  For the capacity `2 ^ 63 + 1`
the call `Init(2 ^ 63 + 1, {})` yields no cache: whatever `Crc16` is, with every amount
of fuel the doubling loop of `FactorOfTwo` is still running (its variable has wrapped
around to zero).  For the capacity `2 ^ 63` the call `Init(2 ^ 63, {})` yields no cache
either: its sizing part returns `Size = 2 ^ 63` and `make` panics on this length. -/
theorem sizing_law_fails_above_half_range :
    (¬ ∃ (Crc16 : Nat → Nat) (fuel : Nat),
      LRU.Init Crc16 fuel (LRU.zero Nat) (2 ^ 63 + 1) LRUOpts.none ≠ .fuelOut) ∧
    InitSizes 70 (2 ^ 63) LRUOpts.none = .ret (65536, 2 ^ 47, 2 ^ 63) ∧
    (¬ ∃ Crc16 : Nat → Nat,
      LRU.Init Crc16 70 (LRU.zero Nat) (2 ^ 63) LRUOpts.none ≠ .crash) := by
  have hS : InitSizes 70 (2 ^ 63) LRUOpts.none = .ret (65536, 2 ^ 47, 2 ^ 63) := by
    rcases @InitSizes_of_exponents 70 (2 ^ 63) LRUOpts.none 2 63 (by omega) (by omega)
      rfl (FactorOfTwo_two_pow (le_refl _) (by decide)) with h | ⟨_, hf⟩
    · exact h
    · omega
  refine ⟨?_, hS, ?_⟩
  · rintro ⟨Crc16, fuel, h⟩
    apply h
    unfold LRU.Init InitSizes FactorOf
    have h4 : FactorOfTwo fuel (requested LRUOpts.none) = .ret 4 := rfl
    rw [h4, FactorOfTwo_diverges (by norm_num) (by unfold W; norm_num) fuel]
    rfl
  · rintro ⟨Crc16, h⟩
    exact h ((Init_of_sizes Crc16 70 (LRU.zero Nat) (2 ^ 63) LRUOpts.none hS).2
      (makeAccepts_of_le (le_refl _)))

theorem FactorOfTwo_zero {fuel : Nat} (hfuel : 1 ≤ fuel) : FactorOfTwo fuel 0 = .ret (2 ^ 0) := by
  obtain ⟨f, rfl⟩ : ∃ f, fuel = f + 1 := ⟨fuel - 1, by omega⟩
  rfl

theorem initResult_congr {V : Type} (Crc16 : Nat → Nat) (lru0 : LRU V)
    (opts opts1 : LRUOpts) (e0 e1 : Nat)
    (h1 : opts1.IndexedValues = opts.IndexedValues) (h2 : opts1.Evict = opts.Evict) :
    initResult Crc16 lru0 opts1 e0 e1 = initResult Crc16 lru0 opts e0 e1 := by
  unfold initResult
  rw [h1, h2]

/-- C8 (configuration misuse), amended to what `Init` does.  For every capacity up to
`2 ^ 63`, `Init` with a requested collision degree of zero (the `Collisions` option, or
the `BucketSize` option when `Collisions` is absent, pointing at 0) reports no
configuration error: it does exactly what it does for a requested degree of one.  Its
sizing part returns at least one bucket of at least one slot; when `make` accepts the
slot count `Size = Buckets * Collisions`, `Init` returns a cache of `Size` empty slots,
and otherwise it panics in `make`, as it does for the degree one. -/
theorem zero_degree_is_degree_one {V : Type} (Crc16 : Nat → Nat) (lru0 : LRU V)
    (cap : Nat) (hcap : cap ≤ 2 ^ 63) (fuel : Nat) (hfuel : 65 ≤ fuel) (opts : LRUOpts)
    (hz : requested opts = 0) :
    (∀ opts1, requested opts1 = 1 → opts1.IndexedValues = opts.IndexedValues →
      opts1.Evict = opts.Evict →
      InitSizes fuel cap opts = InitSizes fuel cap opts1 ∧
      LRU.Init Crc16 fuel lru0 cap opts = LRU.Init Crc16 fuel lru0 cap opts1) ∧
    ∃ b c, InitSizes fuel cap opts = .ret (b, c, b * c) ∧ 1 ≤ b ∧ 1 ≤ c ∧
      (makeAccepts (b * c) = true →
        ∃ lru, LRU.Init Crc16 fuel lru0 cap opts = .ret lru ∧
          lru.Buckets = b ∧ lru.Collisions = c ∧
          lru.Size = lru.Buckets * lru.Collisions ∧
          lru.Cache.length = lru.Size ∧ ∀ x ∈ lru.Cache, x = none) ∧
      (makeAccepts (b * c) = false → LRU.Init Crc16 fuel lru0 cap opts = .crash) := by
  have hW : (2 : Nat) ^ 63 < W := two_pow_lt_W (le_refl _)
  obtain ⟨m, hm⟩ := @FactorOfTwo_terminates fuel cap hcap hfuel
  obtain ⟨e1, h1, rfl, _, _⟩ := FactorOfTwo_ret (lt_of_le_of_lt hcap hW) hm
  have hc : FactorOfTwo fuel (requested opts) = .ret (2 ^ 0) := by
    rw [hz]; exact FactorOfTwo_zero (by omega)
  have hS : InitSizes fuel cap opts = .ret (2 ^ min (max e1 0 - 0) 16,
      2 ^ (0 + (max e1 0 - 0 - min (max e1 0 - 0) 16)), 2 ^ max e1 0) := by
    rcases InitSizes_of_exponents fuel cap opts (Nat.zero_le _) h1 hc hm with h | ⟨_, hf⟩
    · exact h
    · omega
  constructor
  · intro opts1 hr hi he
    have hc1 : FactorOfTwo fuel (requested opts1) = .ret (2 ^ 0) := by
      rw [hr]; rfl
    have hS1 : InitSizes fuel cap opts1 = .ret (2 ^ min (max e1 0 - 0) 16,
        2 ^ (0 + (max e1 0 - 0 - min (max e1 0 - 0) 16)), 2 ^ max e1 0) := by
      rcases InitSizes_of_exponents fuel cap opts1 (Nat.zero_le _) h1 hc1 hm
        with h | ⟨_, hf⟩
      · exact h
      · omega
    refine ⟨hS.trans hS1.symm, ?_⟩
    rcases Init_of_exponents Crc16 fuel lru0 cap opts (Nat.zero_le _) h1 hc hm
      with ⟨ha, h⟩ | ⟨ha, h⟩ | ⟨_, hf⟩
    · rcases Init_of_exponents Crc16 fuel lru0 cap opts1 (Nat.zero_le _) h1 hc1 hm
        with ⟨_, h'⟩ | ⟨ha', _⟩ | ⟨_, hf⟩
      · rw [h, h', initResult_congr Crc16 lru0 opts opts1 0 e1 hi he]
      · rw [ha] at ha'
        cases ha'
      · omega
    · rcases Init_of_exponents Crc16 fuel lru0 cap opts1 (Nat.zero_le _) h1 hc1 hm
        with ⟨ha', _⟩ | ⟨_, h'⟩ | ⟨_, hf⟩
      · rw [ha] at ha'
        cases ha'
      · rw [h, h']
      · omega
    · omega
  · have hprod : (2 : Nat) ^ min (max e1 0 - 0) 16 *
        2 ^ (0 + (max e1 0 - 0 - min (max e1 0 - 0) 16)) = 2 ^ max e1 0 := by
      rw [← pow_add]
      congr 1
      omega
    rw [← hprod] at hS
    obtain ⟨hacc, hrej⟩ := Init_of_sizes Crc16 fuel lru0 cap opts hS
    refine ⟨_, _, hS, Nat.two_pow_pos _, Nat.two_pow_pos _, ?_, hrej⟩
    intro ha
    obtain ⟨lru, hI, hb, hc, hs, hcache, _⟩ := hacc ha
    refine ⟨lru, hI, hb, hc, ?_, ?_, ?_⟩
    · rw [hs, hb, hc]
    · rw [hcache, hs, List.length_replicate]
    · intro x hx
      rw [hcache] at hx
      exact List.eq_of_mem_replicate hx

/-- Witness for C8: `Init(16, {BucketSize: 0})`, which returns 16 buckets of one slot,
as `Init(16, {BucketSize: 1})` does. -/
theorem zero_degree_is_degree_one_witness :
    (16 ≤ 2 ^ 63 ∧ 65 ≤ 70 ∧
      requested { LRUOpts.none with BucketSize := some 0 } = 0) ∧
    InitSizes 70 16 { LRUOpts.none with BucketSize := some 0 } = .ret (16, 1, 16) ∧
    makeAccepts 16 = true ∧
    (∃ lru : LRU Nat, LRU.Init crc16Sample 70 (LRU.zero Nat) 16
        { LRUOpts.none with BucketSize := some 0 } = .ret lru ∧
      LRU.Init crc16Sample 70 (LRU.zero Nat) 16
        { LRUOpts.none with BucketSize := some 1 } = .ret lru ∧
      lru.Buckets = 16 ∧ lru.Collisions = 1 ∧ lru.Size = 16 ∧
      lru.Cache = List.replicate 16 none) ∧
    ((∀ opts1, requested opts1 = 1 →
      opts1.IndexedValues = LRUOpts.IndexedValues
        { LRUOpts.none with BucketSize := some 0 } →
      opts1.Evict = LRUOpts.Evict { LRUOpts.none with BucketSize := some 0 } →
      InitSizes 70 16 { LRUOpts.none with BucketSize := some 0 }
        = InitSizes 70 16 opts1 ∧
      LRU.Init crc16Sample 70 (LRU.zero Nat) 16
          { LRUOpts.none with BucketSize := some 0 }
        = LRU.Init crc16Sample 70 (LRU.zero Nat) 16 opts1) ∧
    ∃ b c, InitSizes 70 16 { LRUOpts.none with BucketSize := some 0 }
        = .ret (b, c, b * c) ∧ 1 ≤ b ∧ 1 ≤ c ∧
      (makeAccepts (b * c) = true →
        ∃ lru : LRU Nat, LRU.Init crc16Sample 70 (LRU.zero Nat) 16
            { LRUOpts.none with BucketSize := some 0 } = .ret lru ∧
          lru.Buckets = b ∧ lru.Collisions = c ∧
          lru.Size = lru.Buckets * lru.Collisions ∧
          lru.Cache.length = lru.Size ∧ ∀ x ∈ lru.Cache, x = none) ∧
      (makeAccepts (b * c) = false →
        LRU.Init crc16Sample 70 (LRU.zero Nat) 16
          { LRUOpts.none with BucketSize := some 0 } = .crash)) :=
  ⟨⟨by norm_num, by decide, rfl⟩, rfl, by decide,
    ⟨_, Init_eval crc16Sample (LRU.zero Nat) 16
        { LRUOpts.none with BucketSize := some 0 } 0 4 (by omega) (by omega) rfl rfl,
      Init_eval crc16Sample (LRU.zero Nat) 16
        { LRUOpts.none with BucketSize := some 1 } 0 4 (by omega) (by omega) rfl rfl,
      rfl, rfl, rfl, rfl⟩,
    zero_degree_is_degree_one crc16Sample (LRU.zero Nat) 16 (by norm_num) 70 (by decide)
      { LRUOpts.none with BucketSize := some 0 } rfl⟩

/-- Counterexample to C8 as stated: whatever `Crc16` is, `Init(16, {Collisions: 0})`
reports no error.  It returns a cache of 16 buckets of one slot each, and the cache is
usable: `Set(7, 42)` returns and the following `Get(7)` returns the record with key 7
and value 42. -/
theorem zero_degree_yields_usable_cache :
    ¬ ∃ Crc16 : Nat → Nat, ¬ ∃ lru s1 : LRU Nat,
      LRU.Init Crc16 70 (LRU.zero Nat) 16
        { LRUOpts.none with Collisions := some 0 } = .ret lru ∧
      lru.Collisions = 1 ∧ lru.Buckets = 16 ∧ lru.Size = 16 ∧ lru.Cache.length = 16 ∧
      lru.Set 70 7 42 = .ret s1 ∧
      s1.Get 70 7 = .ret (s1, some { Index := some 7, Value := 42 }) := by
  rintro ⟨Crc16, hnot⟩
  apply hnot
  have hinit := Init_eval Crc16 (LRU.zero Nat) 16
    { LRUOpts.none with Collisions := some 0 } 0 4 (by omega) (by omega) rfl rfl
  have hws : WellSized (initResult Crc16 (LRU.zero Nat)
      { LRUOpts.none with Collisions := some 0 } 0 4) :=
    initResult_wellSized_of _ _ (by omega) (by omega) (fun hb => absurd hb (by decide))
  obtain ⟨h, hH, hlt, _, _, _, _⟩ := id hws
  have hp : 1 * h 7 < 16 := by
    have := hlt 7
    have hb : (initResult Crc16 (LRU.zero Nat)
      { LRUOpts.none with Collisions := some 0 } 0 4).Buckets = 16 := rfl
    omega
  have hslot : (List.replicate 16 (none : Option (Node Nat)))[1 * h 7]? = some none :=
    List.getElem?_replicate_of_lt hp
  have hset := Set_front_empty hH hws 7 42 68 hslot
  have hget : ∀ s1 : LRU Nat,
      Frame (initResult Crc16 (LRU.zero Nat)
        { LRUOpts.none with Collisions := some 0 } 0 4) s1 →
      s1.Cache[1 * h 7]? = some (some { Index := some 7, Value := 42 }) →
      s1.Get 70 7 = .ret (s1, some { Index := some 7, Value := 42 }) := by
    intro s1 hF hsl
    have hH1 : s1.Hash = some h := hF.2.2.2.2.1.trans hH
    have hsl1 : s1.Cache[s1.Collisions * h 7]?
        = some (some { Index := some 7, Value := 42 }) := by
      rw [hF.1]; exact hsl
    exact Get_front_hit hH1 (WellSized.of_frame hF hws) 7 68 _ hsl1 rfl
  exact ⟨_, _, hinit, rfl, rfl, rfl, rfl, hset,
    hget _ ⟨rfl, rfl, rfl, rfl, rfl, rfl, rfl, by simp [initResult]⟩
      (List.getElem?_set_self (show 1 * h 7 < (List.replicate 16
        (none : Option (Node Nat))).length by simpa using hp))⟩

/-- C10 (collision rounding), amended to degrees up to `2 ^ 63`.  For a requested degree
`c` with `1 ≤ c ≤ 2 ^ 63`, `FactorOfTwo(c)` returns a power of two that is at least `c`
and at most every power of two that is at least `c`.  `Init`, for a capacity up to
`2 ^ 63` and options whose requested degree is `c`, sets `Collisions` to that power of
two whenever the bucket count `FactorOf(cap, Collisions) / Collisions` is at most 65536:
its sizing part returns this value of `Collisions`, and so does the cache `Init` returns
when `make` accepts the slot count (when `make` does not, `Init` panics).  The requested
degree is 4, with `FactorOfTwo(4) = 4`, when no option is given; it is the `Collisions`
option whenever that is given, and the `BucketSize` option when only that is given. -/
theorem collision_rounding (c : Nat) (_hc1 : 1 ≤ c) (hc : c ≤ 2 ^ 63) (fuel : Nat)
    (hfuel : 65 ≤ fuel) :
    (∃ e, FactorOfTwo fuel c = .ret (2 ^ e) ∧ c ≤ 2 ^ e ∧ (∀ j, c ≤ 2 ^ j → 2 ^ e ≤ 2 ^ j) ∧
      ∀ (V : Type) (Crc16 : Nat → Nat) (lru0 : LRU V) (cap : Nat) (opts : LRUOpts),
        cap ≤ 2 ^ 63 → requested opts = c →
        ∃ f b col, FactorOf fuel cap (2 ^ e) = .ret f ∧
          InitSizes fuel cap opts = .ret (b, col, b * col) ∧
          (f / 2 ^ e ≤ 65536 → col = 2 ^ e) ∧
          (makeAccepts (b * col) = true →
            ∃ lru, LRU.Init Crc16 fuel lru0 cap opts = .ret lru ∧
              lru.Collisions = col) ∧
          (makeAccepts (b * col) = false →
            LRU.Init Crc16 fuel lru0 cap opts = .crash)) ∧
    (requested LRUOpts.none = 4 ∧ FactorOfTwo fuel 4 = .ret 4) ∧
    (∀ c1 b iv ev, requested
      { Collisions := some c1, BucketSize := b, IndexedValues := iv, Evict := ev } = c1) ∧
    (∀ b iv ev, requested
      { Collisions := none, BucketSize := some b, IndexedValues := iv, Evict := ev } = b) := by
  have hW : (2 : Nat) ^ 63 < W := two_pow_lt_W (le_refl _)
  refine ⟨?_, ⟨rfl, rfl⟩, fun _ _ _ _ => rfl, fun _ _ _ => rfl⟩
  obtain ⟨r, hr⟩ := @FactorOfTwo_terminates fuel c hc hfuel
  obtain ⟨e0, h0, rfl, hle, hmin⟩ := FactorOfTwo_ret (lt_of_le_of_lt hc hW) hr
  refine ⟨e0, hr, hle, fun j hj => Nat.pow_le_pow_right (by decide) (hmin j hj), ?_⟩
  intro V Crc16 lru0 cap opts hcap hreq
  obtain ⟨m, hm⟩ := @FactorOfTwo_terminates fuel cap hcap hfuel
  obtain ⟨e1, h1, rfl, _, _⟩ := FactorOfTwo_ret (lt_of_le_of_lt hcap hW) hm
  have hcr : FactorOfTwo fuel (requested opts) = .ret (2 ^ e0) := by rw [hreq]; exact hr
  have hS : InitSizes fuel cap opts = .ret (2 ^ min (max e1 e0 - e0) 16,
      2 ^ (e0 + (max e1 e0 - e0 - min (max e1 e0 - e0) 16)), 2 ^ max e1 e0) := by
    rcases InitSizes_of_exponents fuel cap opts h0 h1 hcr hm with h | ⟨_, hf⟩
    · exact h
    · omega
  have hprod : (2 : Nat) ^ min (max e1 e0 - e0) 16 *
      2 ^ (e0 + (max e1 e0 - e0 - min (max e1 e0 - e0) 16)) = 2 ^ max e1 e0 := by
    rw [← pow_add]
    congr 1
    omega
  rw [← hprod] at hS
  obtain ⟨hacc, hrej⟩ := Init_of_sizes Crc16 fuel lru0 cap opts hS
  refine ⟨_, _, _, FactorOf_of_exponents h0 h1 hfuel hm, hS, ?_, ?_, hrej⟩
  · intro hsmall
    rw [Nat.pow_div (le_max_right e1 e0) (by decide)] at hsmall
    have h16 : (65536 : Nat) = 2 ^ 16 := by norm_num
    rw [h16] at hsmall
    have hd : max e1 e0 - e0 ≤ 16 := (Nat.pow_le_pow_iff_right (by decide)).mp hsmall
    congr 1
    omega
  · intro ha
    obtain ⟨lru, hI, _, hcol, _⟩ := hacc ha
    exact ⟨lru, hI, hcol⟩

/-- Witness for C10: requested degree 5, rounded to 8; `Init(100, {Collisions: 5})`
returns a cache with `Collisions = 8`. -/
theorem collision_rounding_witness :
    (1 ≤ 5 ∧ 5 ≤ 2 ^ 63 ∧ 65 ≤ 70) ∧ FactorOfTwo 70 5 = .ret 8 ∧
    InitSizes 70 100 { LRUOpts.none with Collisions := some 5 } = .ret (16, 8, 128) ∧
    (∃ lru : LRU Nat, LRU.Init crc16Sample 70 (LRU.zero Nat) 100
        { LRUOpts.none with Collisions := some 5 } = .ret lru ∧ lru.Collisions = 8) ∧
    ((∃ e, FactorOfTwo 70 5 = .ret (2 ^ e) ∧ 5 ≤ 2 ^ e ∧ (∀ j, 5 ≤ 2 ^ j → 2 ^ e ≤ 2 ^ j) ∧
      ∀ (V : Type) (Crc16 : Nat → Nat) (lru0 : LRU V) (cap : Nat) (opts : LRUOpts),
        cap ≤ 2 ^ 63 → requested opts = 5 →
        ∃ f b col, FactorOf 70 cap (2 ^ e) = .ret f ∧
          InitSizes 70 cap opts = .ret (b, col, b * col) ∧
          (f / 2 ^ e ≤ 65536 → col = 2 ^ e) ∧
          (makeAccepts (b * col) = true →
            ∃ lru, LRU.Init Crc16 70 lru0 cap opts = .ret lru ∧
              lru.Collisions = col) ∧
          (makeAccepts (b * col) = false →
            LRU.Init Crc16 70 lru0 cap opts = .crash)) ∧
    (requested LRUOpts.none = 4 ∧ FactorOfTwo 70 4 = .ret 4) ∧
    (∀ c1 b iv ev, requested
      { Collisions := some c1, BucketSize := b, IndexedValues := iv, Evict := ev } = c1) ∧
    (∀ b iv ev, requested
      { Collisions := none, BucketSize := some b, IndexedValues := iv, Evict := ev } = b)) :=
  ⟨⟨by decide, by norm_num, by decide⟩, rfl, rfl,
    ⟨_, Init_eval crc16Sample (LRU.zero Nat) 100
      { LRUOpts.none with Collisions := some 5 } 3 7 (by omega) (by omega) rfl rfl, rfl⟩,
    collision_rounding 5 (by decide) (by norm_num) 70 (by decide)⟩

/-- Counterexample to C10 as stated: for the degree `2 ^ 63 + 1` the call
`FactorOfTwo(2 ^ 63 + 1)` yields no value; with every amount of fuel its doubling loop is
still running. -/
theorem collision_rounding_fails_above_half_range :
    ¬ ∃ fuel : Nat, FactorOfTwo fuel (2 ^ 63 + 1) ≠ .fuelOut := by
  rintro ⟨fuel, h⟩
  exact h (FactorOfTwo_diverges (by norm_num) (by unfold W; norm_num) fuel)

/-! ## Bucket count and small capacities -/

theorem ceil_div_le_iff {cap c m : Nat} (hc : 0 < c) :
    (cap + c - 1) / c ≤ m ↔ cap ≤ c * m := by
  rw [Nat.div_le_iff_le_mul_add_pred hc]
  constructor <;> intro h <;> omega

/-- C11 (bucket count), amended to capacities up to `2 ^ 63`.  For a per-bucket capacity
`2 ^ a` (any power of two of the word) `FactorOf(cap, 2 ^ a) / 2 ^ a` is a power of two,
is at least `ceil(cap / 2 ^ a)`, is at most every power of two that is at least
`ceil(cap / 2 ^ a)`, and is 1 when `cap = 0`.  `Init` starts from `Collisions = c`
(the rounded degree) and `Buckets = FactorOf(cap, c) / c`, halves `Buckets` and doubles
`Collisions` some number `n` of times, keeping their product; `n = 0` when the bucket
count is at most 65536, and otherwise the halving ends at `Buckets = 65536`.  These are
the values its sizing part returns, and those of the cache `Init` returns when `make`
accepts the slot count (when `make` does not, `Init` panics). -/
theorem bucket_count (cap a : Nat) (hcap : cap ≤ 2 ^ 63) (ha : a ≤ 63) (fuel : Nat)
    (hfuel : 65 ≤ fuel) :
    (∃ f e, FactorOf fuel cap (2 ^ a) = .ret f ∧ f / 2 ^ a = 2 ^ e ∧
      (cap + 2 ^ a - 1) / 2 ^ a ≤ 2 ^ e ∧
      (∀ j, (cap + 2 ^ a - 1) / 2 ^ a ≤ 2 ^ j → 2 ^ e ≤ 2 ^ j) ∧
      (cap = 0 → f / 2 ^ a = 1)) ∧
    ∀ (V : Type) (Crc16 : Nat → Nat) (lru0 : LRU V) (opts : LRUOpts),
      requested opts ≤ 2 ^ 63 →
      ∃ c f b col n, FactorOfTwo fuel (requested opts) = .ret c ∧
        FactorOf fuel cap c = .ret f ∧
        InitSizes fuel cap opts = .ret (b, col, b * col) ∧
        b * 2 ^ n = f / c ∧ col = c * 2 ^ n ∧ b * col = f / c * c ∧
        (f / c ≤ 65536 → n = 0) ∧ (65536 < f / c → b = 65536) ∧
        (makeAccepts (b * col) = true →
          ∃ lru, LRU.Init Crc16 fuel lru0 cap opts = .ret lru ∧
            lru.Buckets = b ∧ lru.Collisions = col) ∧
        (makeAccepts (b * col) = false →
          LRU.Init Crc16 fuel lru0 cap opts = .crash) := by
  have hW : (2 : Nat) ^ 63 < W := two_pow_lt_W (le_refl _)
  obtain ⟨m, hm⟩ := @FactorOfTwo_terminates fuel cap hcap hfuel
  obtain ⟨e1, h1, rfl, hle1, hmin1⟩ := FactorOfTwo_ret (lt_of_le_of_lt hcap hW) hm
  constructor
  · refine ⟨_, max e1 a - a, FactorOf_of_exponents ha h1 hfuel hm,
      Nat.pow_div (le_max_right e1 a) (by decide), ?_, ?_, ?_⟩
    · rw [ceil_div_le_iff (Nat.two_pow_pos a), ← pow_add]
      have : a + (max e1 a - a) = max e1 a := by omega
      rw [this]
      exact le_trans hle1 (Nat.pow_le_pow_right (by decide) (le_max_left _ _))
    · intro j hj
      rw [ceil_div_le_iff (Nat.two_pow_pos a), ← pow_add] at hj
      have := hmin1 (a + j) hj
      exact Nat.pow_le_pow_right (by decide) (by omega)
    · intro h0
      subst h0
      have he : e1 = 0 := Nat.le_zero.mp (hmin1 0 (by norm_num))
      rw [Nat.pow_div (le_max_right e1 a) (by decide), he]
      have : max 0 a - a = 0 := by omega
      rw [this]
  · intro V Crc16 lru0 opts hreq
    obtain ⟨c, hc⟩ := @FactorOfTwo_terminates fuel (requested opts) hreq hfuel
    obtain ⟨e0, h0, rfl, _, _⟩ := FactorOfTwo_ret (lt_of_le_of_lt hreq hW) hc
    have hS : InitSizes fuel cap opts = .ret (2 ^ min (max e1 e0 - e0) 16,
        2 ^ (e0 + (max e1 e0 - e0 - min (max e1 e0 - e0) 16)), 2 ^ max e1 e0) := by
      rcases InitSizes_of_exponents fuel cap opts h0 h1 hc hm with h | ⟨_, hf⟩
      · exact h
      · omega
    have hprod : (2 : Nat) ^ min (max e1 e0 - e0) 16 *
        2 ^ (e0 + (max e1 e0 - e0 - min (max e1 e0 - e0) 16)) = 2 ^ max e1 e0 := by
      rw [← pow_add]
      congr 1
      omega
    rw [← hprod] at hS
    obtain ⟨hacc, hrej⟩ := Init_of_sizes Crc16 fuel lru0 cap opts hS
    have h16 : (65536 : Nat) = 2 ^ 16 := by norm_num
    refine ⟨_, _, _, _, max e1 e0 - e0 - min (max e1 e0 - e0) 16, hc,
      FactorOf_of_exponents h0 h1 hfuel hm, hS, ?_, ?_, ?_, ?_, ?_, ?_, hrej⟩
    · rw [Nat.pow_div (le_max_right e1 e0) (by decide), ← pow_add]
      congr 1
      omega
    · rw [pow_add]
    · rw [Nat.pow_div (le_max_right e1 e0) (by decide), ← pow_add, ← pow_add]
      congr 1
      omega
    · intro hsmall
      rw [Nat.pow_div (le_max_right e1 e0) (by decide), h16] at hsmall
      have hd : max e1 e0 - e0 ≤ 16 := (Nat.pow_le_pow_iff_right (by decide)).mp hsmall
      omega
    · intro hbig
      rw [Nat.pow_div (le_max_right e1 e0) (by decide), h16] at hbig
      have hd : 16 < max e1 e0 - e0 := (Nat.pow_lt_pow_iff_right (by decide)).mp hbig
      have : min (max e1 e0 - e0) 16 = 16 := by omega
      rw [this]
      norm_num
    · intro hacc1
      obtain ⟨lru, hI, hb, hcol, _⟩ := hacc hacc1
      exact ⟨lru, hI, hb, hcol⟩

/-- Witness for C11: capacity 100 in buckets of 4; `Init(100, {})` returns a cache of 32
buckets of 4 slots. -/
theorem bucket_count_witness :
    (100 ≤ 2 ^ 63 ∧ 2 ≤ 63 ∧ 65 ≤ 70) ∧ FactorOf 70 100 (2 ^ 2) = .ret 128 ∧
    InitSizes 70 100 LRUOpts.none = .ret (32, 4, 128) ∧
    (∃ lru : LRU Nat, LRU.Init crc16Sample 70 (LRU.zero Nat) 100 LRUOpts.none = .ret lru ∧
      lru.Buckets = 32 ∧ lru.Collisions = 4) ∧
    ((∃ f e, FactorOf 70 100 (2 ^ 2) = .ret f ∧ f / 2 ^ 2 = 2 ^ e ∧
      (100 + 2 ^ 2 - 1) / 2 ^ 2 ≤ 2 ^ e ∧
      (∀ j, (100 + 2 ^ 2 - 1) / 2 ^ 2 ≤ 2 ^ j → 2 ^ e ≤ 2 ^ j) ∧
      (100 = 0 → f / 2 ^ 2 = 1)) ∧
    ∀ (V : Type) (Crc16 : Nat → Nat) (lru0 : LRU V) (opts : LRUOpts),
      requested opts ≤ 2 ^ 63 →
      ∃ c f b col n, FactorOfTwo 70 (requested opts) = .ret c ∧
        FactorOf 70 100 c = .ret f ∧
        InitSizes 70 100 opts = .ret (b, col, b * col) ∧
        b * 2 ^ n = f / c ∧ col = c * 2 ^ n ∧ b * col = f / c * c ∧
        (f / c ≤ 65536 → n = 0) ∧ (65536 < f / c → b = 65536) ∧
        (makeAccepts (b * col) = true →
          ∃ lru, LRU.Init Crc16 70 lru0 100 opts = .ret lru ∧
            lru.Buckets = b ∧ lru.Collisions = col) ∧
        (makeAccepts (b * col) = false →
          LRU.Init Crc16 70 lru0 100 opts = .crash)) :=
  ⟨⟨by norm_num, by decide, by decide⟩, rfl, rfl,
    ⟨_, Init_eval crc16Sample (LRU.zero Nat) 100 LRUOpts.none 2 7 (by omega) (by omega)
      rfl rfl, rfl, rfl⟩,
    bucket_count 100 2 (by norm_num) (by decide) 70 (by decide)⟩

/-- Counterexample to C11 as stated: for the capacity `2 ^ 63 + 1` and the per-bucket
capacity 4 the call `FactorOf(2 ^ 63 + 1, 4)` yields no value; with every amount of fuel
the doubling loop of `FactorOfTwo` is still running. -/
theorem bucket_count_fails_above_half_range :
    ¬ ∃ fuel : Nat, FactorOf fuel (2 ^ 63 + 1) 4 ≠ .fuelOut := by
  rintro ⟨fuel, h⟩
  apply h
  unfold FactorOf
  rw [FactorOfTwo_diverges (by norm_num) (by unfold W; norm_num) fuel]
  rfl

/-- C12 (small capacities), amended to collision degrees up to `2 ^ 63` and to lengths
`make` accepts.  For a requested capacity of 0 or 1 and any options whose requested
degree is at most `2 ^ 63` (none given included), the sizing part of `Init` returns
exactly one bucket and `Size = Collisions ≥ 1`.  When `make` accepts the length `Size`,
`Init` returns a cache with these values and a hash that sends every key to bucket 0;
when `make` does not accept it, as for every requested degree above `2 ^ 62`, `Init`
panics. -/
theorem small_capacity {V : Type} (Crc16 : Nat → Nat) (lru0 : LRU V) (cap : Nat)
    (hcap : cap ≤ 1) (opts : LRUOpts) (hreq : requested opts ≤ 2 ^ 63) (fuel : Nat)
    (hfuel : 65 ≤ fuel) :
    ∃ c, InitSizes fuel cap opts = .ret (1, c, c) ∧ 1 ≤ c ∧
      (makeAccepts c = true →
        ∃ lru h, LRU.Init Crc16 fuel lru0 cap opts = .ret lru ∧ lru.Buckets = 1 ∧
          lru.Collisions = c ∧ lru.Size = lru.Collisions ∧
          lru.Cache.length = lru.Size ∧ lru.Hash = some h ∧ ∀ k, h k = 0) ∧
      (makeAccepts c = false → LRU.Init Crc16 fuel lru0 cap opts = .crash) ∧
      (2 ^ 62 < requested opts → makeAccepts c = false) := by
  have hW : (2 : Nat) ^ 63 < W := two_pow_lt_W (le_refl _)
  obtain ⟨c, hc⟩ := @FactorOfTwo_terminates fuel (requested opts) hreq hfuel
  obtain ⟨e0, h0, rfl, hle0, _⟩ := FactorOfTwo_ret (lt_of_le_of_lt hreq hW) hc
  have hm : FactorOfTwo fuel cap = .ret (2 ^ 0) := by
    rcases Nat.le_one_iff_eq_zero_or_eq_one.mp hcap with rfl | rfl
    · exact FactorOfTwo_zero (by omega)
    · rfl
  have hS : InitSizes fuel cap opts = .ret (2 ^ min (max 0 e0 - e0) 16,
      2 ^ (e0 + (max 0 e0 - e0 - min (max 0 e0 - e0) 16)), 2 ^ max 0 e0) := by
    rcases InitSizes_of_exponents fuel cap opts h0 (Nat.zero_le _) hc hm with h | ⟨_, hf⟩
    · exact h
    · omega
  have hb : min (max 0 e0 - e0) 16 = 0 := by omega
  have hcol : e0 + (max 0 e0 - e0 - min (max 0 e0 - e0) 16) = e0 := by omega
  have hsz : max 0 e0 = e0 := by omega
  rw [hcol, hb, hsz, pow_zero] at hS
  obtain ⟨hacc, hrej⟩ := Init_of_sizes Crc16 fuel lru0 cap opts hS
  refine ⟨2 ^ e0, hS, Nat.two_pow_pos _, ?_, hrej, ?_⟩
  · intro ha
    obtain ⟨lru, hI, hb1, hc1, hs1, hcache, hhash⟩ := hacc ha
    refine ⟨lru, MaskedHash Crc16 0, hI, hb1, hc1, ?_, ?_, ?_, maskedHash_zero Crc16⟩
    · rw [hs1, hc1]
    · rw [hcache, hs1, List.length_replicate]
    · rw [hhash]
      rfl
  · intro hbig
    apply makeAccepts_of_le
    have h63 : e0 = 63 := by
      by_contra hne
      have : requested opts ≤ 2 ^ 62 :=
        le_trans hle0 (Nat.pow_le_pow_right (by decide) (by omega))
      omega
    rw [h63]

/-- Witness for C12: capacity 0 with the `Collisions` option pointing at 3; `Init`
returns one bucket of 4 slots. -/
theorem small_capacity_witness :
    (0 ≤ 1 ∧ requested { LRUOpts.none with Collisions := some 3 } ≤ 2 ^ 63 ∧ 65 ≤ 70) ∧
    InitSizes 70 0 { LRUOpts.none with Collisions := some 3 } = .ret (1, 4, 4) ∧
    makeAccepts 4 = true ∧
    (∃ lru : LRU Nat, LRU.Init crc16Sample 70 (LRU.zero Nat) 0
        { LRUOpts.none with Collisions := some 3 } = .ret lru ∧ lru.Buckets = 1 ∧
      lru.Collisions = 4 ∧ lru.Size = 4 ∧ lru.Cache = List.replicate 4 none) ∧
    ∃ c, InitSizes 70 0 { LRUOpts.none with Collisions := some 3 } = .ret (1, c, c) ∧
      1 ≤ c ∧
      (makeAccepts c = true →
        ∃ (lru : LRU Nat) (h : Nat → Nat), LRU.Init crc16Sample 70 (LRU.zero Nat) 0
            { LRUOpts.none with Collisions := some 3 } = .ret lru ∧ lru.Buckets = 1 ∧
          lru.Collisions = c ∧ lru.Size = lru.Collisions ∧
          lru.Cache.length = lru.Size ∧ lru.Hash = some h ∧ ∀ k, h k = 0) ∧
      (makeAccepts c = false →
        LRU.Init crc16Sample 70 (LRU.zero Nat) 0
          { LRUOpts.none with Collisions := some 3 } = .crash) ∧
      (2 ^ 62 < requested { LRUOpts.none with Collisions := some 3 } →
        makeAccepts c = false) :=
  ⟨⟨by decide, by show 3 ≤ 2 ^ 63; norm_num, by decide⟩, rfl, by decide,
    ⟨_, Init_eval crc16Sample (LRU.zero Nat) 0
      { LRUOpts.none with Collisions := some 3 } 2 0 (by omega) (by omega) rfl rfl,
      rfl, rfl, rfl, rfl⟩,
    small_capacity crc16Sample (LRU.zero Nat) 0 (by decide)
      { LRUOpts.none with Collisions := some 3 } (by show 3 ≤ 2 ^ 63; norm_num) 70
      (by decide)⟩

/-- Counterexample to C12 as stated, at two collision degrees.  With the `Collisions`
option pointing at `2 ^ 63 + 1`, `Init(1, opts)` yields no cache: whatever `Crc16` is,
with every amount of fuel the doubling loop of `FactorOfTwo` is still running.  With the
`Collisions` option pointing at `2 ^ 63`, `Init(1, opts)` yields no cache either: its
sizing part returns one bucket and `Size = Collisions = 2 ^ 63`, and `make` panics on
this length. -/
theorem small_capacity_fails_for_large_degree :
    (¬ ∃ (Crc16 : Nat → Nat) (fuel : Nat),
      LRU.Init Crc16 fuel (LRU.zero Nat) 1
        { LRUOpts.none with Collisions := some (2 ^ 63 + 1) } ≠ .fuelOut) ∧
    InitSizes 70 1 { LRUOpts.none with Collisions := some (2 ^ 63) }
      = .ret (1, 2 ^ 63, 2 ^ 63) ∧
    (¬ ∃ Crc16 : Nat → Nat,
      LRU.Init Crc16 70 (LRU.zero Nat) 1
        { LRUOpts.none with Collisions := some (2 ^ 63) } ≠ .crash) := by
  have hS : InitSizes 70 1 { LRUOpts.none with Collisions := some (2 ^ 63) }
      = .ret (1, 2 ^ 63, 2 ^ 63) := by
    rcases @InitSizes_of_exponents 70 1 { LRUOpts.none with Collisions := some (2 ^ 63) }
      63 0 (by omega) (by omega) (FactorOfTwo_two_pow (le_refl _) (by decide)) rfl
      with h | ⟨_, hf⟩
    · exact h
    · omega
  refine ⟨?_, hS, ?_⟩
  · rintro ⟨Crc16, fuel, h⟩
    apply h
    unfold LRU.Init InitSizes
    have hr : requested { LRUOpts.none with Collisions := some (2 ^ 63 + 1) }
        = 2 ^ 63 + 1 := rfl
    rw [hr, FactorOfTwo_diverges (by norm_num) (by unfold W; norm_num) fuel]
    rfl
  · rintro ⟨Crc16, h⟩
    exact h ((Init_of_sizes Crc16 70 (LRU.zero Nat) 1
      { LRUOpts.none with Collisions := some (2 ^ 63) } hS).2
      (makeAccepts_of_le (le_refl _)))

/-! ## The slot a returning call writes -/

/-- C13 (reposition contract), evaluated on the code.  For every list and every item
position strictly behind the front index, `Move` returns for no amount of fuel, so it
produces no list at all; the loop that should shift the slots never advances. -/
theorem reposition_never_returns {V : Type} (list : List (Option (Node V)))
    (front pos : Nat) (item : Option (Node V)) (h : front < pos) :
    ∀ fuel r, Move fuel list front pos item ≠ .ret r := by
  intro fuel r hr
  have := (Move_ret fuel list front pos item r hr).1
  omega

/-- Witness for C13: promoting the last of three slots. -/
theorem reposition_never_returns_witness :
    0 < 2 ∧ ∀ fuel r, Move fuel
      ([some { Index := some 1, Value := 10 }, some { Index := some 2, Value := 20 },
        some { Index := some 3, Value := 30 }] : List (Option (Node Nat))) 0 2
      (some { Index := some 3, Value := 30 }) ≠ .ret r :=
  ⟨by decide, reposition_never_returns _ 0 2 _ (by decide)⟩

/-- C16 (position-indexed overwrite), evaluated on the code.
`Init(1, {Collisions: 1, IndexedValues: true})` builds one bucket of one slot in
position-indexed mode and `Set(1, a)` fills it.  On this full bucket `Set(1, b)` returns
and leaves the cache exactly as it was: the slot still holds the record with value `a`,
because the record handed to `Move` is the old one, which overwrites the new record. -/
theorem position_indexed_set_keeps_old_record {V : Type} (Crc16 : Nat → Nat) (a b : V) :
    ∃ s0 s1 : LRU V,
      LRU.Init Crc16 70 (LRU.zero V) 1
        { LRUOpts.none with Collisions := some 1, IndexedValues := some true }
        = .ret s0 ∧
      s0.Wrap = false ∧ s0.Collisions = 1 ∧ s0.Buckets = 1 ∧
      s0.Set 70 1 a = .ret s1 ∧
      s1.Cache = [some { Index := none, Value := a }] ∧
      s1.Set 70 1 b = .ret s1 := by
  let s0 : LRU V := initResult Crc16 (LRU.zero V)
    { LRUOpts.none with Collisions := some 1, IndexedValues := some true } 0 0
  let s1 : LRU V := { s0 with Cache := [some { Index := none, Value := a }] }
  have hH0 : s0.Hash = some (MaskedHash Crc16 0) := rfl
  have hH1 : s1.Hash = some (MaskedHash Crc16 0) := rfl
  have hC : (1 : Nat) < W := by unfold W; norm_num
  refine ⟨s0, s1, Init_eval Crc16 _ 1 _ 0 0 (by omega) (by omega) rfl rfl, rfl, rfl, rfl,
    ?_, rfl, ?_⟩
  · rw [Set_of_hash_zero s0 _ 1 a 70 hH0 (maskedHash_zero Crc16 1) hC]
    exact SetLoop_front_empty s0 1 a 0 1 68 none (by decide) rfl
  · rw [Set_of_hash_zero s1 _ 1 b 70 hH1 (maskedHash_zero Crc16 1) hC]
    rfl

/-- A returning `SetFull` on a non-empty bucket wrote the first slot of the bucket. -/
theorem SetFull_ret_front {V : Type} {fuel : Nat} {s t : LRU V} {k : Nat} {v : V}
    {ps ptr : Nat} {pg : Node V} (hlt : ps < ptr) (hW : ptr < W)
    (hmem : some pg ∈ s.Cache)
    (h : SetFull fuel s k v ps ptr (some pg) = .ret t) :
    ∃ x, t.Cache = s.Cache.set ps (some x) ∧ ps < s.Cache.length ∧
      ((s.Wrap = true ∧ x = { Index := some k, Value := v }) ∨
       (s.Wrap = false ∧ x = { Index := none, Value := v }) ∨
       (∃ q, some q ∈ s.Cache ∧ q.Index = some k ∧ x = { Index := q.Index, Value := v }) ∨
       (s.Wrap = false ∧ some x ∈ s.Cache)) := by
  have hsub : usub ptr 1 = ptr - 1 := usub_one (by omega) hW
  unfold SetFull at h
  rw [hsub] at h
  by_cases hw : s.Wrap = true
  · rw [if_pos hw] at h
    simp only at h
    have key : ∀ c, Move fuel (s.Cache.set (ptr - 1)
        (some { Index := some k, Value := v })) ps (ptr - 1)
        (some { Index := some k, Value := v }) = .ret c →
        c = s.Cache.set ps (some { Index := some k, Value := v }) ∧
          ps < s.Cache.length := by
      intro c hc
      obtain ⟨hle, hlen, rfl⟩ := Move_ret _ _ _ _ _ _ hc
      have hp : ptr - 1 = ps := by omega
      rw [hp, List.set_set]
      exact ⟨rfl, by simpa using hlen⟩
    by_cases he : s.Evict = true
    · rw [if_pos he] at h
      cases hi : pg.Index with
      | none => rw [hi] at h; cases h
      | some i =>
        rw [hi] at h
        simp only at h
        obtain ⟨c, hc, h⟩ := bind_eq_ret.mp h
        injection h with h
        subst h
        obtain ⟨hceq, hlen⟩ := key c hc
        exact ⟨_, hceq, hlen, Or.inl ⟨hw, rfl⟩⟩
    · rw [if_neg he] at h
      obtain ⟨c, hc, h⟩ := bind_eq_ret.mp h
      injection h with h
      subst h
      obtain ⟨hceq, hlen⟩ := key c hc
      exact ⟨_, hceq, hlen, Or.inl ⟨hw, rfl⟩⟩
  · rw [if_neg hw] at h
    simp only at h
    by_cases hlen : ptr - 1 < s.Cache.length
    · rw [if_pos hlen] at h
      obtain ⟨c, hc, h⟩ := bind_eq_ret.mp h
      injection h with h
      subst h
      obtain ⟨hle, hl, rfl⟩ := Move_ret _ _ _ _ _ _ hc
      have hp : ptr - 1 = ps := by omega
      refine ⟨pg, ?_, by rw [← hp]; exact hlen, Or.inr (Or.inr (Or.inr ⟨by simpa using hw, hmem⟩))⟩
      show (s.Cache.set (ptr - 1) _).set ps (some pg) = s.Cache.set ps (some pg)
      rw [hp, List.set_set]
    · rw [if_neg hlen] at h; cases h

/-- A returning `Set` wrote the first slot of the key's bucket and nothing else. -/
theorem SetLoop_ret_front {V : Type} {s t : LRU V} {k : Nat} {v : V} {ps pe : Nat}
    (hb : ps < pe) (hW : pe < W) :
    ∀ (fuel ptr : Nat) (page : Option (Node V)), ps ≤ ptr → ptr ≤ pe →
      (ptr = ps ∨ ∃ pg, page = some pg ∧ some pg ∈ s.Cache) →
      SetLoop s k v ps pe fuel ptr page = .ret t →
      ∃ x, t.Cache = s.Cache.set ps (some x) ∧ ps < s.Cache.length ∧
        ((s.Wrap = true ∧ x = { Index := some k, Value := v }) ∨
         (s.Wrap = false ∧ x = { Index := none, Value := v }) ∨
         (∃ q, some q ∈ s.Cache ∧ q.Index = some k ∧
            x = { Index := q.Index, Value := v }) ∨
         (s.Wrap = false ∧ some x ∈ s.Cache)) := by
  intro fuel
  induction fuel with
  | zero => intro ptr page _ _ _ h; simp [SetLoop] at h
  | succ f ih =>
    intro ptr page hlo hhi hpage h
    unfold SetLoop at h
    by_cases hlt : ptr < pe
    · rw [if_pos hlt] at h
      cases hs : s.Cache[ptr]? with
      | none => rw [hs] at h; cases h
      | some slot =>
        cases slot with
        | none =>
          rw [hs] at h
          simp only at h
          obtain ⟨c, hc, h⟩ := bind_eq_ret.mp h
          injection h with h
          subst h
          obtain ⟨hle, hlen, rfl⟩ := Move_ret _ _ _ _ _ _ hc
          refine ⟨_, rfl, hlen, ?_⟩
          by_cases hw : s.Wrap = true
          · rw [if_pos hw]; exact Or.inl ⟨hw, rfl⟩
          · rw [if_neg hw]; exact Or.inr (Or.inl ⟨by simpa using hw, rfl⟩)
        | some pg =>
          rw [hs] at h
          simp only at h
          by_cases hk : pg.Index = some k
          · rw [if_pos hk] at h
            obtain ⟨c, hc, h⟩ := bind_eq_ret.mp h
            injection h with h
            subst h
            obtain ⟨hle, hlen, rfl⟩ := Move_ret _ _ _ _ _ _ hc
            have hp : ptr = ps := by omega
            subst hp
            refine ⟨{ Index := pg.Index, Value := v }, ?_, by simpa using hlen,
              Or.inr (Or.inr (Or.inl ⟨pg, List.getElem?_mem hs, hk, rfl⟩))⟩
            show (s.Cache.set ptr _).set ptr _ = _
            rw [List.set_set]
          · rw [if_neg hk] at h
            have hadd : uadd ptr 1 = ptr + 1 := Nat.mod_eq_of_lt (by omega)
            rw [hadd] at h
            exact ih (ptr + 1) (some pg) (by omega) (by omega)
              (Or.inr ⟨pg, rfl, List.getElem?_mem hs⟩) h
    · rw [if_neg hlt] at h
      have hp : ptr ≠ ps := by omega
      rcases hpage with hp' | ⟨pg, rfl, hmem⟩
      · exact absurd hp' hp
      · exact SetFull_ret_front (by omega) (by omega) hmem h

/-- Bucket bounds that fit a machine word are computed without wrap-around. -/
theorem bucket_fit_bounds {c x : Nat} (hfit : c * x + c < W) :
    umul c x = c * x ∧ uadd (umul c x) c = c * x + c := by
  have e1 : umul c x = c * x := Nat.mod_eq_of_lt (by omega)
  refine ⟨e1, ?_⟩
  rw [e1]
  exact Nat.mod_eq_of_lt hfit

/-- Whenever the bucket of `k` is non-empty and its bounds fit a machine word, a
returning `Set(k, v)` wrote slot `Collisions * Hash(k)`, the first slot of the bucket,
and nothing else.  The record written is the new record of the mode, the matched record
with its value replaced, or (in position-indexed mode, on a full bucket) a record that
was already stored. -/
theorem Set_ret_front_of_fit {V : Type} {fuel : Nat} {s t : LRU V} {h : Nat → Nat}
    {k : Nat} {v : V} (hH : s.Hash = some h) (hpos : 0 < s.Collisions)
    (hfit : s.Collisions * h k + s.Collisions < W) (hret : s.Set fuel k v = .ret t) :
    ∃ x, t.Cache = s.Cache.set (s.Collisions * h k) (some x) ∧
      s.Collisions * h k < s.Cache.length ∧
      ((s.Wrap = true ∧ x = { Index := some k, Value := v }) ∨
       (s.Wrap = false ∧ x = { Index := none, Value := v }) ∨
       (∃ q, some q ∈ s.Cache ∧ q.Index = some k ∧
          x = { Index := q.Index, Value := v }) ∨
       (s.Wrap = false ∧ some x ∈ s.Cache)) := by
  obtain ⟨e1, e2⟩ := bucket_fit_bounds hfit
  unfold LRU.Set at hret
  rw [hH] at hret
  simp only at hret
  rw [e2, e1] at hret
  exact SetLoop_ret_front (by omega) hfit fuel _ none (le_refl _) (by omega)
    (Or.inl rfl) hret

theorem WellSized.fit {V : Type} {s : LRU V} {h : Nat → Nat} (hH : s.Hash = some h)
    (hs : WellSized s) (k : Nat) :
    0 < s.Collisions ∧ s.Collisions * h k + s.Collisions < W := by
  obtain ⟨_, _, hle⟩ := bucket_bounds hH hs k
  obtain ⟨_, _, _, _, _, hW, hpos⟩ := hs
  exact ⟨hpos, by omega⟩

/-- The same on a well-sized cache. -/
theorem Set_ret_front {V : Type} {fuel : Nat} {s t : LRU V} {h : Nat → Nat} {k : Nat}
    {v : V} (hH : s.Hash = some h) (hs : WellSized s) (hret : s.Set fuel k v = .ret t) :
    ∃ x, t.Cache = s.Cache.set (s.Collisions * h k) (some x) ∧
      s.Collisions * h k < s.Cache.length ∧
      ((s.Wrap = true ∧ x = { Index := some k, Value := v }) ∨
       (s.Wrap = false ∧ x = { Index := none, Value := v }) ∨
       (∃ q, some q ∈ s.Cache ∧ q.Index = some k ∧
          x = { Index := q.Index, Value := v }) ∨
       (s.Wrap = false ∧ some x ∈ s.Cache)) :=
  Set_ret_front_of_fit hH (hs.fit hH k).1 (hs.fit hH k).2 hret

theorem set_getElem?_self {α : Type} {l : List α} {i : Nat} {a : α} (h : l[i]? = some a) :
    l.set i a = l := by
  apply List.ext_getElem?
  intro j
  by_cases hj : i = j
  · subst hj; rw [List.getElem?_set_self (getElem?_lt h)]; exact h.symm
  · rw [List.getElem?_set_ne hj]

/-- A returning scan of `Get` leaves the cache exactly as it was. -/
theorem GetLoop_ret_same {V : Type} {s t : LRU V} {k : Nat} {ps pe : Nat}
    {r : Option (Node V)} (hW : pe < W) :
    ∀ (fuel ptr : Nat), ps ≤ ptr → ptr ≤ pe →
      GetLoop s k ps pe fuel ptr = .ret (t, r) → t = s := by
  intro fuel
  induction fuel with
  | zero => intro ptr _ _ h; simp [GetLoop] at h
  | succ f ih =>
    intro ptr hlo hhi h
    unfold GetLoop at h
    by_cases hlt : ptr < pe
    · rw [if_pos hlt] at h
      cases hs : s.Cache[ptr]? with
      | none => rw [hs] at h; cases h
      | some slot =>
        cases slot with
        | none =>
          rw [hs] at h
          simp only at h
          injection h with h
          injection h with h1 h2
          exact h1.symm
        | some pg =>
          rw [hs] at h
          simp only at h
          by_cases hk : pg.Index = some k
          · rw [if_pos hk, usub_uadd_one (by omega)] at h
            obtain ⟨c, hc, h⟩ := bind_eq_ret.mp h
            injection h with h
            injection h with h1 h2
            obtain ⟨hle, hlen, rfl⟩ := Move_ret _ _ _ _ _ _ hc
            have hp : ptr = ps := by omega
            subst hp
            rw [set_getElem?_self hs] at h1
            exact h1.symm
          · rw [if_neg hk] at h
            have hadd : uadd ptr 1 = ptr + 1 := Nat.mod_eq_of_lt (by omega)
            rw [hadd] at h
            exact ih (ptr + 1) (by omega) (by omega) h
    · rw [if_neg hlt] at h
      injection h with h
      injection h with h1 h2
      exact h1.symm

/-- Whenever the bounds of the bucket of `k` fit a machine word, a returning `Get(k)`
leaves the cache exactly as it was. -/
theorem Get_ret_same_of_fit {V : Type} {fuel : Nat} {s t : LRU V} {h : Nat → Nat}
    {k : Nat} {r : Option (Node V)} (hH : s.Hash = some h)
    (hfit : s.Collisions * h k + s.Collisions < W)
    (hret : s.Get fuel k = .ret (t, r)) : t = s := by
  obtain ⟨e1, e2⟩ := bucket_fit_bounds hfit
  unfold LRU.Get at hret
  rw [hH] at hret
  simp only at hret
  rw [e2, e1] at hret
  exact GetLoop_ret_same hfit fuel _ (le_refl _) (by omega) hret

/-- On a well-sized cache a returning `Get` leaves the cache exactly as it was. -/
theorem Get_ret_same {V : Type} {fuel : Nat} {s t : LRU V} {k : Nat}
    {r : Option (Node V)} (hs : WellSized s) (hret : s.Get fuel k = .ret (t, r)) :
    t = s := by
  obtain ⟨h, hH, _, _, _, _, _⟩ := id hs
  exact Get_ret_same_of_fit hH (hs.fit hH k).2 hret

/-- `Init` builds a cache without any record. -/
theorem initResult_frontOnly {V : Type} (Crc16 : Nat → Nat) (lru0 : LRU V)
    (opts : LRUOpts) (e0 e1 : Nat) : FrontOnly (initResult Crc16 lru0 opts e0 e1) := by
  intro p nd hp
  have : some nd ∈ List.replicate (2 ^ max e1 e0) (none : Option (Node V)) :=
    List.getElem?_mem hp
  have := List.eq_of_mem_replicate this
  cases this

/-- A returning `Set` keeps the invariant `FrontOnly`. -/
theorem Set_frontOnly {V : Type} {fuel : Nat} {s t : LRU V} {k : Nat} {v : V}
    (hs : WellSized s) (hinv : FrontOnly s) (hret : s.Set fuel k v = .ret t) :
    FrontOnly t := by
  obtain ⟨h, hH, _, _, _, _, _⟩ := id hs
  obtain ⟨hF, _⟩ := Set_ret hret
  obtain ⟨a1, _, _, a4, a5, _, _, _⟩ := hF
  obtain ⟨x, hc, hlen, hprov⟩ := Set_ret_front hH hs hret
  intro p nd hp
  rw [a1, a4, a5]
  rw [hc] at hp
  by_cases hpp : s.Collisions * h k = p
  · subst hpp
    rw [List.getElem?_set_self hlen] at hp
    injection hp with hp
    injection hp with hp
    subst hp
    refine ⟨⟨h k, rfl⟩, ?_⟩
    rcases hprov with ⟨hw, rfl⟩ | ⟨hw, rfl⟩ | ⟨q, hq, hqk, rfl⟩ | ⟨hw, hx⟩
    · rw [if_pos hw]; exact ⟨h, k, hH, rfl, rfl⟩
    · rw [hw]; simp
    · obtain ⟨n, hn⟩ := List.getElem?_of_mem hq
      have hq2 := (hinv n q hn).2
      by_cases hw : s.Wrap = true
      · rw [if_pos hw]; exact ⟨h, k, hH, hqk, rfl⟩
      · rw [if_neg hw] at hq2
        rw [hq2] at hqk
        cases hqk
    · obtain ⟨n, hn⟩ := List.getElem?_of_mem hx
      have hq2 := (hinv n x hn).2
      rw [hw] at hq2 ⊢
      simpa using hq2
  · rw [List.getElem?_set_ne hpp] at hp
    exact hinv p nd hp

/-- Every run of returning calls keeps the sizing facts and the invariant `FrontOnly`. -/
theorem run_frontOnly {V : Type} :
    ∀ (ops : List (Nat × Op V)) (s t : LRU V), WellSized s → FrontOnly s →
      s.run ops = .ret t → WellSized t ∧ FrontOnly t := by
  intro ops
  induction ops with
  | nil =>
    intro s t hs hinv h
    simp only [LRU.run] at h
    injection h with h
    subst h
    exact ⟨hs, hinv⟩
  | cons fop ops ih =>
    intro s t hs hinv h
    obtain ⟨fuel, op⟩ := fop
    simp only [LRU.run] at h
    obtain ⟨m, hm, hrest⟩ := bind_eq_ret.mp h
    cases op with
    | set k0 v0 =>
      simp only [LRU.step] at hm
      exact ih m t (WellSized.of_frame (Set_ret hm).1 hs) (Set_frontOnly hs hinv hm) hrest
    | get k0 =>
      simp only [LRU.step] at hm
      obtain ⟨r, hr, hm⟩ := bind_eq_ret.mp hm
      injection hm with hm
      obtain ⟨t1, r1⟩ := r
      simp only at hm
      subst hm
      have := Get_ret_same hs hr
      subst this
      exact ih _ t hs hinv hrest

/-- Every state reached from a returning `Init` by returning calls is well sized and
satisfies `FrontOnly`. -/
theorem reachable_frontOnly {V : Type} {Crc16 : Nat → Nat} (hcrc : ∀ n, Crc16 n < 65536)
    {fuel0 : Nat} {lru0 s0 s : LRU V} {cap : Nat} {opts : LRUOpts} (hcap : cap < W)
    (hreq : requested opts < W) {ops : List (Nat × Op V)}
    (hinit : LRU.Init Crc16 fuel0 lru0 cap opts = .ret s0)
    (hrun : s0.run ops = .ret s) :
    WellSized s ∧ FrontOnly s ∧ Frame s0 s := by
  obtain ⟨hws, _⟩ := Init_wellSized hcrc hcap hreq hinit
  obtain ⟨e0, e1, _, _, _, _, _, _, _, _, hres⟩ := Init_ret hcap hreq hinit
  have hf0 : FrontOnly s0 := by
    rw [hres]; exact initResult_frontOnly Crc16 lru0 opts e0 e1
  obtain ⟨h1, h2⟩ := run_frontOnly ops s0 s hws hf0 hrun
  exact ⟨h1, h2, (run_ret ops s0 s hrun).1⟩

/-! ## Invariants of the reachable states -/

theorem bucket_offset_zero {c b b1 j : Nat} (hj : j < c) (h : c * b + j = c * b1) :
    j = 0 := by
  have h1 : (c * b + j) % c = j := by
    rw [Nat.mul_add_mod]; exact Nat.mod_eq_of_lt hj
  have h2 : (c * b1) % c = 0 := Nat.mul_mod_right c b1
  rw [h] at h1
  omega

theorem FrontOnly.contiguous {V : Type} {s : LRU V} (h : FrontOnly s) : Contiguous s := by
  intro b i j nd hij hj _ hslot
  obtain ⟨⟨b1, hb1⟩, _⟩ := h _ nd hslot
  have := bucket_offset_zero hj hb1
  omega

theorem FrontOnly.uniqueKeys {V : Type} {s : LRU V} (h : FrontOnly s) : UniqueKeys s := by
  intro i j ni nj k hi hj hki hkj
  have h1 := (h i ni hi).2
  have h2 := (h j nj hj).2
  by_cases hw : s.Wrap = true
  · rw [if_pos hw] at h1 h2
    obtain ⟨f1, k1, hf1, hk1, hp1⟩ := h1
    obtain ⟨f2, k2, hf2, hk2, hp2⟩ := h2
    rw [hf1] at hf2
    injection hf2 with hf2
    subst hf2
    rw [hki] at hk1
    rw [hkj] at hk2
    injection hk1 with hk1
    injection hk2 with hk2
    subst hk1
    subst hk2
    rw [← hp1, ← hp2]
  · rw [if_neg hw] at h1
    rw [h1] at hki
    cases hki

theorem FrontOnly.no_key {V : Type} {s : LRU V} (h : FrontOnly s) (hw : s.Wrap = false)
    (k : Nat) : ¬ storesKey s.Cache k := by
  rintro ⟨x, hx, hk⟩
  cases x with
  | none => cases hk
  | some nd =>
    obtain ⟨n, hn⟩ := List.getElem?_of_mem hx
    have h1 := (h n nd hn).2
    rw [hw] at h1
    have h2 : nd.Index = none := by simpa using h1
    have h3 : nd.Index = some k := hk
    rw [h2] at h3
    cases h3

/-- C14 (contiguity invariant).  Let `s` be reached from a returning `Init` (either key
mode, `Crc16` a 16-bit hash) by returning `Set`/`Get` calls.  Then in the initial state,
in `s`, and in the state after any further returning `Set` or `Get`, no empty slot of a
bucket is followed by a non-empty slot of the same bucket. -/
theorem contiguity_invariant {V : Type} (Crc16 : Nat → Nat)
    (hcrc : ∀ n, Crc16 n < 65536) (fuel0 : Nat) (lru0 s0 s : LRU V) (cap : Nat)
    (opts : LRUOpts) (hcap : cap < W) (hreq : requested opts < W)
    (ops : List (Nat × Op V))
    (hinit : LRU.Init Crc16 fuel0 lru0 cap opts = .ret s0)
    (hrun : s0.run ops = .ret s) :
    Contiguous s0 ∧ Contiguous s ∧
    (∀ fuel k v t, s.Set fuel k v = .ret t → Contiguous t) ∧
    (∀ fuel k t r, s.Get fuel k = .ret (t, r) → Contiguous t) := by
  have hrun0 : s0.run [] = .ret s0 := rfl
  obtain ⟨_, hf0, _⟩ := reachable_frontOnly hcrc hcap hreq hinit hrun0
  obtain ⟨hws, hf, _⟩ := reachable_frontOnly hcrc hcap hreq hinit hrun
  refine ⟨hf0.contiguous, hf.contiguous, ?_, ?_⟩
  · intro fuel k v t ht
    exact (Set_frontOnly hws hf ht).contiguous
  · intro fuel k t r ht
    rw [Get_ret_same hws ht]
    exact hf.contiguous

/-- Witness for C14: after `Init(1, {})`, `Set(1, 10)` and `Get(1)`. -/
theorem contiguity_invariant_witness :
    ∃ s0 s : LRU Nat,
      LRU.Init crc16Sample 70 (LRU.zero Nat) 1 LRUOpts.none = .ret s0 ∧
      s0.run [(3, Op.set 1 10), (3, Op.get 1)] = .ret s ∧
      s.Cache = [some { Index := some 1, Value := 10 }, none, none, none] ∧
      Contiguous s0 ∧ Contiguous s ∧
      (∀ fuel k v t, s.Set fuel k v = .ret t → Contiguous t) ∧
      (∀ fuel k t r, s.Get fuel k = .ret (t, r) → Contiguous t) := by
  have hinit := Init_eval crc16Sample (LRU.zero Nat) 1 LRUOpts.none 2 0 (by omega)
    (by omega) rfl rfl
  have hrun : (initResult crc16Sample (LRU.zero Nat) LRUOpts.none 2 0).run
      [(3, Op.set 1 10), (3, Op.get 1)] = .ret { initResult crc16Sample (LRU.zero Nat)
        LRUOpts.none 2 0 with
          Cache := [some { Index := some 1, Value := 10 }, none, none, none] } := rfl
  exact ⟨_, _, hinit, hrun, rfl,
    contiguity_invariant crc16Sample crc16Sample_lt 70 _ _ _ 1 LRUOpts.none
      (by unfold W; norm_num) (by unfold W; decide) _ hinit hrun⟩

/-- C15 (key uniqueness invariant).  Let `s` be reached from a returning `Init` (`Crc16`
a 16-bit hash) by returning `Set`/`Get` calls.  Then in the initial state, in `s`, and
in the state after any further returning `Set` or `Get`, no key is stored in more than
one slot of the slot array. -/
theorem key_uniqueness_invariant {V : Type} (Crc16 : Nat → Nat)
    (hcrc : ∀ n, Crc16 n < 65536) (fuel0 : Nat) (lru0 s0 s : LRU V) (cap : Nat)
    (opts : LRUOpts) (hcap : cap < W) (hreq : requested opts < W)
    (ops : List (Nat × Op V))
    (hinit : LRU.Init Crc16 fuel0 lru0 cap opts = .ret s0)
    (hrun : s0.run ops = .ret s) :
    UniqueKeys s0 ∧ UniqueKeys s ∧
    (∀ fuel k v t, s.Set fuel k v = .ret t → UniqueKeys t) ∧
    (∀ fuel k t r, s.Get fuel k = .ret (t, r) → UniqueKeys t) := by
  have hrun0 : s0.run [] = .ret s0 := rfl
  obtain ⟨_, hf0, _⟩ := reachable_frontOnly hcrc hcap hreq hinit hrun0
  obtain ⟨hws, hf, _⟩ := reachable_frontOnly hcrc hcap hreq hinit hrun
  refine ⟨hf0.uniqueKeys, hf.uniqueKeys, ?_, ?_⟩
  · intro fuel k v t ht
    exact (Set_frontOnly hws hf ht).uniqueKeys
  · intro fuel k t r ht
    rw [Get_ret_same hws ht]
    exact hf.uniqueKeys

/-- Witness for C15: after `Init(16, {Collisions: 1})`, `Set(1, 10)`, `Set(2, 20)` and
`Set(1, 30)`. -/
theorem key_uniqueness_invariant_witness :
    ∃ s0 s : LRU Nat,
      LRU.Init crc16Sample 70 (LRU.zero Nat) 16
        { LRUOpts.none with Collisions := some 1 } = .ret s0 ∧
      s0.run [(3, Op.set 1 10), (3, Op.set 2 20), (3, Op.set 1 30)] = .ret s ∧
      s.Cache[1]? = some (some { Index := some 1, Value := 30 }) ∧
      s.Cache[2]? = some (some { Index := some 2, Value := 20 }) ∧
      UniqueKeys s0 ∧ UniqueKeys s ∧
      (∀ fuel k v t, s.Set fuel k v = .ret t → UniqueKeys t) ∧
      (∀ fuel k t r, s.Get fuel k = .ret (t, r) → UniqueKeys t) := by
  have hinit := Init_eval crc16Sample (LRU.zero Nat) 16
    { LRUOpts.none with Collisions := some 1 } 0 4 (by omega) (by omega) rfl rfl
  have hrun : (initResult crc16Sample (LRU.zero Nat)
      { LRUOpts.none with Collisions := some 1 } 0 4).run
      [(3, Op.set 1 10), (3, Op.set 2 20), (3, Op.set 1 30)]
      = .ret { initResult crc16Sample (LRU.zero Nat)
        { LRUOpts.none with Collisions := some 1 } 0 4 with
          Cache := ((List.replicate 16 none).set 1
            (some { Index := some 1, Value := 30 })).set 2
            (some { Index := some 2, Value := 20 }) } := rfl
  exact ⟨_, _, hinit, hrun, rfl, rfl,
    key_uniqueness_invariant crc16Sample crc16Sample_lt 70 _ _ _ 16 _
      (by unfold W; norm_num) (by unfold W; decide) _ hinit hrun⟩

theorem initResult_wrap_of_indexed {V : Type} (Crc16 : Nat → Nat) (lru0 : LRU V)
    (opts : LRUOpts) (e0 e1 : Nat) (h : opts.IndexedValues = some true) :
    (initResult Crc16 lru0 opts e0 e1).Wrap = false := by
  show (match opts.IndexedValues with
    | some iv => !iv
    | Option.none => true) = false
  rw [h]
  rfl

/-- C17 (lookups in position-indexed mode).  Let `s` be reached from a returning `Init`
with `IndexedValues` pointing at `true` (`Crc16` a 16-bit hash) by returning `Set`/`Get`
calls.  Then for every key `k`, `Get(k)` returns, with any fuel above `Collisions`, the
unchanged cache and nil; and so it does in the state right after any returning
`Set(k, v)`. -/
theorem indexed_get_never_finds {V : Type} (Crc16 : Nat → Nat)
    (hcrc : ∀ n, Crc16 n < 65536) (fuel0 : Nat) (lru0 s0 s : LRU V) (cap : Nat)
    (opts : LRUOpts) (hcap : cap < W) (hreq : requested opts < W)
    (hmode : opts.IndexedValues = some true) (ops : List (Nat × Op V))
    (hinit : LRU.Init Crc16 fuel0 lru0 cap opts = .ret s0)
    (hrun : s0.run ops = .ret s) (k : Nat) :
    (∀ fuel, s.Collisions < fuel → s.Get fuel k = .ret (s, none)) ∧
    ∀ fuelS v t, s.Set fuelS k v = .ret t →
      ∀ fuel, t.Collisions < fuel → t.Get fuel k = .ret (t, none) := by
  obtain ⟨hws, hf, hF⟩ := reachable_frontOnly hcrc hcap hreq hinit hrun
  obtain ⟨e0, e1, _, _, _, _, _, _, _, _, hres⟩ := Init_ret hcap hreq hinit
  have hw0 : s0.Wrap = false := by
    rw [hres]; exact initResult_wrap_of_indexed Crc16 lru0 opts e0 e1 hmode
  have hw : s.Wrap = false := hF.2.2.2.1.trans hw0
  constructor
  · intro fuel hfuel
    exact Get_miss hws (hf.no_key hw k) hfuel
  · intro fuelS v t ht fuel hfuel
    have hFt := (Set_ret ht).1
    exact Get_miss (WellSized.of_frame hFt hws)
      ((Set_frontOnly hws hf ht).no_key (hFt.2.2.2.1.trans hw) k) hfuel

/-- Witness for C17: `Init(1, {IndexedValues: true})`, then `Set(1, 10)`. -/
theorem indexed_get_never_finds_witness :
    ∃ s0 s : LRU Nat,
      LRU.Init crc16Sample 70 (LRU.zero Nat) 1
        { LRUOpts.none with IndexedValues := some true } = .ret s0 ∧
      s0.run [(3, Op.set 1 10)] = .ret s ∧
      s.Cache = [some { Index := none, Value := 10 }, none, none, none] ∧
      (∀ fuel, s.Collisions < fuel → s.Get fuel 1 = .ret (s, none)) ∧
      ∀ fuelS v t, s.Set fuelS 1 v = .ret t →
        ∀ fuel, t.Collisions < fuel → t.Get fuel 1 = .ret (t, none) := by
  have hinit := Init_eval crc16Sample (LRU.zero Nat) 1
    { LRUOpts.none with IndexedValues := some true } 2 0 (by omega) (by omega) rfl rfl
  have hrun : (initResult crc16Sample (LRU.zero Nat)
      { LRUOpts.none with IndexedValues := some true } 2 0).run [(3, Op.set 1 10)]
      = .ret { initResult crc16Sample (LRU.zero Nat)
        { LRUOpts.none with IndexedValues := some true } 2 0 with
          Cache := [some { Index := none, Value := 10 }, none, none, none] } := rfl
  exact ⟨_, _, hinit, hrun, rfl,
    indexed_get_never_finds crc16Sample crc16Sample_lt 70 _ _ _ 1 _
      (by unfold W; norm_num) (by unfold W; decide) rfl _ hinit hrun 1⟩

/-- C18 (records sit in the bucket of their key).  Let `s` be reached from a returning
`Init` in key-stored mode (`Wrap` set, `Crc16` a 16-bit hash) by returning `Set`/`Get`
calls.  Then every non-empty slot carries a key, and its position `p` satisfies
`Collisions * Hash(key) ≤ p < Collisions * Hash(key) + Collisions`. -/
theorem stored_key_in_own_bucket {V : Type} (Crc16 : Nat → Nat)
    (hcrc : ∀ n, Crc16 n < 65536) (fuel0 : Nat) (lru0 s0 s : LRU V) (cap : Nat)
    (opts : LRUOpts) (hcap : cap < W) (hreq : requested opts < W)
    (hmode : s0.Wrap = true) (ops : List (Nat × Op V))
    (hinit : LRU.Init Crc16 fuel0 lru0 cap opts = .ret s0)
    (hrun : s0.run ops = .ret s) :
    ∃ h, s.Hash = some h ∧ ∀ p nd, s.Cache[p]? = some (some nd) →
      ∃ k, nd.Index = some k ∧ s.Collisions * h k ≤ p ∧
        p < s.Collisions * h k + s.Collisions := by
  obtain ⟨hws, hf, hF⟩ := reachable_frontOnly hcrc hcap hreq hinit hrun
  have hw : s.Wrap = true := hF.2.2.2.1.trans hmode
  obtain ⟨h, hH, _, _, _, _, hpos⟩ := id hws
  refine ⟨h, hH, ?_⟩
  intro p nd hp
  have h1 := (hf p nd hp).2
  rw [if_pos hw] at h1
  obtain ⟨f1, k, hf1, hk, hpk⟩ := h1
  rw [hH] at hf1
  injection hf1 with hf1
  subst hf1
  exact ⟨k, hk, by omega, by omega⟩

/-- Witness for C18: after `Init(16, {Collisions: 1})`, `Set(1, 10)` and `Set(2, 20)`. -/
theorem stored_key_in_own_bucket_witness :
    ∃ s0 s : LRU Nat,
      LRU.Init crc16Sample 70 (LRU.zero Nat) 16
        { LRUOpts.none with Collisions := some 1 } = .ret s0 ∧
      s0.Wrap = true ∧
      s0.run [(3, Op.set 1 10), (3, Op.set 2 20)] = .ret s ∧
      s.Cache[1]? = some (some { Index := some 1, Value := 10 }) ∧
      ∃ h, s.Hash = some h ∧ ∀ p nd, s.Cache[p]? = some (some nd) →
        ∃ k, nd.Index = some k ∧ s.Collisions * h k ≤ p ∧
          p < s.Collisions * h k + s.Collisions := by
  have hinit := Init_eval crc16Sample (LRU.zero Nat) 16
    { LRUOpts.none with Collisions := some 1 } 0 4 (by omega) (by omega) rfl rfl
  have hrun : (initResult crc16Sample (LRU.zero Nat)
      { LRUOpts.none with Collisions := some 1 } 0 4).run
      [(3, Op.set 1 10), (3, Op.set 2 20)]
      = .ret { initResult crc16Sample (LRU.zero Nat)
        { LRUOpts.none with Collisions := some 1 } 0 4 with
          Cache := ((List.replicate 16 none).set 1
            (some { Index := some 1, Value := 10 })).set 2
            (some { Index := some 2, Value := 20 }) } := rfl
  exact ⟨_, _, hinit, rfl, hrun, rfl,
    stored_key_in_own_bucket crc16Sample crc16Sample_lt 70 _ _ _ 16 _
      (by unfold W; norm_num) (by unfold W; decide) rfl _ hinit hrun⟩

theorem ushl1_iterate_two_pow (i : Nat) :
    ∀ j, i + j ≤ 63 → ushl1^[j] (2 ^ i) = 2 ^ (i + j) := by
  intro j
  induction j with
  | zero => intro _; rfl
  | succ j ih =>
    intro h
    rw [Function.iterate_succ_apply', ih (by omega), ushl1_two_pow (by omega)]
    rfl

theorem ushr1_iterate_two_pow (i : Nat) :
    ∀ j, j ≤ i → ushr1^[j] (2 ^ i) = 2 ^ (i - j) := by
  intro j
  induction j with
  | zero => intro _; rfl
  | succ j ih =>
    intro h
    rw [Function.iterate_succ_apply', ih (by omega)]
    unfold ushr1
    have : i - j = (i - (j + 1)) + 1 := by omega
    rw [this, pow_succ, Nat.mul_div_cancel _ (by decide)]

/-- The run of `FactorOfTwo(n)` for `n ≤ 2 ^ 63`: the early return, or a loop that
starts from 1 and shifts `e` times without wrap-around, `2 ^ e` being the result. -/
theorem FactorOfTwo_run {fuel n e : Nat} (he : e ≤ 63)
    (hret : FactorOfTwo fuel n = .ret (2 ^ e)) (hmin : ∀ j, n ≤ 2 ^ j → e ≤ j)
    (hle : n ≤ 2 ^ e) :
    (n ≠ 0 ∧ (n &&& usub n 1) = 0 ∧ 2 ^ e = n) ∨
    (¬ (n ≠ 0 ∧ (n &&& usub n 1) = 0) ∧
      FactorOfTwoLoop n fuel 1 = .ret (ushl1^[e] 1) ∧
      NoWrapRun (fun j => ushl1^[j] 1 < n) 1 e) := by
  have hit : ∀ j, j ≤ 63 → ushl1^[j] 1 = 2 ^ j := by
    intro j hj
    have := ushl1_iterate_two_pow 0 j (by omega)
    rw [pow_zero, Nat.zero_add] at this
    exact this
  by_cases hp : n ≠ 0 ∧ (n &&& usub n 1) = 0
  · left
    unfold FactorOfTwo at hret
    rw [if_pos hp] at hret
    injection hret with hret
    exact ⟨hp.1, hp.2, hret.symm⟩
  · right
    unfold FactorOfTwo at hret
    rw [if_neg hp] at hret
    refine ⟨hp, ?_, ?_, ?_⟩
    · rw [hit e he]
      exact hret
    · intro j hj
      beta_reduce
      rw [hit j (by omega)]
      constructor
      · by_contra hnot
        have := hmin j (not_lt.mp hnot)
        omega
      · rw [← pow_succ]
        exact two_pow_lt_W (by omega)
    · beta_reduce
      rw [hit e he]
      exact not_lt.mpr hle

/-- C20 (no overflow in `Init`).  In 64-bit wrap-around arithmetic, for every requested
capacity and every requested collision degree that are at most `2 ^ 63`, with any fuel
from 65 on all loops of `Init` exit and none of their left shifts wraps around.  Each of
the two calls of `FactorOfTwo` (on the requested degree, and on the capacity inside
`FactorOf`) returns at once or runs its loop from 1 for some number of shifts; the loop
of `FactorOf` and the halving loop of `Init` run for some number of shifts; each loop
returns its start value shifted that number of times, and the operand of every shift
doubles to less than `2 ^ 64` (`NoWrapRun`).  The division by `Collisions` does not
divide by zero.  The sizing part of `Init` returns, `Size = Buckets * Collisions` is at
most `2 ^ 63` and the wrapping product is the exact product.  After that `Init` returns
the cache when `make` accepts the length `Size`, and panics in `make` when it does not,
as for `Size = 2 ^ 63`: it never runs forever. -/
theorem init_terminates_without_overflow {V : Type} (Crc16 : Nat → Nat) (lru0 : LRU V)
    (cap : Nat) (opts : LRUOpts) (hcap : cap ≤ 2 ^ 63) (hreq : requested opts ≤ 2 ^ 63)
    (fuel : Nat) (hfuel : 65 ≤ fuel) :
    ∃ c m f b col k0 k1 k2 k3 : Nat,
      FactorOfTwo fuel (requested opts) = .ret c ∧
      ((requested opts ≠ 0 ∧ (requested opts &&& usub (requested opts) 1) = 0 ∧
          c = requested opts) ∨
        (¬ (requested opts ≠ 0 ∧ (requested opts &&& usub (requested opts) 1) = 0) ∧
          FactorOfTwoLoop (requested opts) fuel 1 = .ret (ushl1^[k0] 1) ∧
          c = ushl1^[k0] 1 ∧
          NoWrapRun (fun j => ushl1^[j] 1 < requested opts) 1 k0)) ∧
      FactorOfTwo fuel cap = .ret m ∧
      ((cap ≠ 0 ∧ (cap &&& usub cap 1) = 0 ∧ m = cap) ∨
        (¬ (cap ≠ 0 ∧ (cap &&& usub cap 1) = 0) ∧
          FactorOfTwoLoop cap fuel 1 = .ret (ushl1^[k1] 1) ∧ m = ushl1^[k1] 1 ∧
          NoWrapRun (fun j => ushl1^[j] 1 < cap) 1 k1)) ∧
      FactorOfLoop c fuel m = .ret (ushl1^[k2] m) ∧ f = ushl1^[k2] m ∧
      NoWrapRun (fun j => (ushl1^[j] m &&& usub c 1) ≠ 0) m k2 ∧
      FactorOf fuel cap c = .ret f ∧
      c ≠ 0 ∧
      InitLoop fuel (f / c) c = .ret (ushr1^[k3] (f / c), ushl1^[k3] c) ∧
      b = ushr1^[k3] (f / c) ∧ col = ushl1^[k3] c ∧
      NoWrapRun (fun j => 65536 < ushr1^[j] (f / c)) c k3 ∧
      InitSizes fuel cap opts = .ret (b, col, b * col) ∧
      umul b col = b * col ∧ b * col ≤ 2 ^ 63 ∧
      (makeAccepts (b * col) = true →
        ∃ lru, LRU.Init Crc16 fuel lru0 cap opts = .ret lru ∧ lru.Buckets = b ∧
          lru.Collisions = col ∧ lru.Size = lru.Buckets * lru.Collisions) ∧
      (makeAccepts (b * col) = false → LRU.Init Crc16 fuel lru0 cap opts = .crash) ∧
      makeAccepts (2 ^ 63) = false := by
  obtain ⟨e0, e1, h0, h1, hc, hm, hle0, hmin0, hle1, hmin1, hS, _⟩ :=
    Init_cases Crc16 lru0 hcap hreq hfuel
  have hprod : (2 : Nat) ^ min (max e1 e0 - e0) 16 *
      2 ^ (e0 + (max e1 e0 - e0 - min (max e1 e0 - e0) 16)) = 2 ^ max e1 e0 := by
    rw [← pow_add]
    congr 1
    omega
  have hsize : (2 : Nat) ^ max e1 e0 ≤ 2 ^ 63 :=
    Nat.pow_le_pow_right (by decide) (by omega)
  have hdiv : (2 : Nat) ^ max e1 e0 / 2 ^ e0 = 2 ^ (max e1 e0 - e0) :=
    Nat.pow_div (le_max_right e1 e0) (by decide)
  -- the iterates of the loops of `FactorOf` and of `Init`
  have hk2 : ushl1^[max e1 e0 - e1] (2 ^ e1) = 2 ^ max e1 e0 := by
    rw [ushl1_iterate_two_pow e1 _ (by omega)]
    congr 1
    omega
  have hk3l : ushl1^[max e1 e0 - e0 - min (max e1 e0 - e0) 16] (2 ^ e0)
      = 2 ^ (e0 + (max e1 e0 - e0 - min (max e1 e0 - e0) 16)) :=
    ushl1_iterate_two_pow e0 _ (by omega)
  have hk3r : ushr1^[max e1 e0 - e0 - min (max e1 e0 - e0) 16] (2 ^ (max e1 e0 - e0))
      = 2 ^ min (max e1 e0 - e0) 16 := by
    rw [ushr1_iterate_two_pow _ _ (by omega)]
    congr 1
    omega
  have hF : FactorOfLoop (2 ^ e0) fuel (2 ^ e1) = .ret (2 ^ max e1 e0) := by
    rcases FactorOfLoop_spec h0 fuel e1 h1 with h | ⟨_, hf⟩
    · exact h
    · omega
  have hI : InitLoop fuel (2 ^ (max e1 e0 - e0)) (2 ^ e0)
      = .ret (2 ^ min (max e1 e0 - e0) 16,
        2 ^ (e0 + (max e1 e0 - e0 - min (max e1 e0 - e0) 16))) := by
    rcases InitLoop_spec fuel (max e1 e0 - e0) e0 (by omega) with h | ⟨_, hf⟩
    · exact h
    · omega
  rw [← hprod] at hS
  obtain ⟨hacc, hrej⟩ := Init_of_sizes Crc16 fuel lru0 cap opts hS
  refine ⟨2 ^ e0, 2 ^ e1, 2 ^ max e1 e0, 2 ^ min (max e1 e0 - e0) 16,
    2 ^ (e0 + (max e1 e0 - e0 - min (max e1 e0 - e0) 16)), e0, e1, max e1 e0 - e1,
    max e1 e0 - e0 - min (max e1 e0 - e0) 16, hc, ?_, hm, ?_, ?_, hk2.symm, ?_,
    FactorOf_of_exponents h0 h1 hfuel hm, Nat.pos_iff_ne_zero.mp (Nat.two_pow_pos _),
    ?_, ?_, hk3l.symm, ?_, hS, ?_, ?_, ?_, hrej, makeAccepts_of_le (le_refl _)⟩
  · rcases FactorOfTwo_run h0 hc hmin0 hle0 with ⟨a, b, c⟩ | ⟨a, b, c⟩
    · exact Or.inl ⟨a, b, c⟩
    · refine Or.inr ⟨a, b, ?_, c⟩
      have := ushl1_iterate_two_pow 0 e0 (by omega)
      rw [pow_zero, Nat.zero_add] at this
      exact this.symm
  · rcases FactorOfTwo_run h1 hm hmin1 hle1 with ⟨a, b, c⟩ | ⟨a, b, c⟩
    · exact Or.inl ⟨a, b, c⟩
    · refine Or.inr ⟨a, b, ?_, c⟩
      have := ushl1_iterate_two_pow 0 e1 (by omega)
      rw [pow_zero, Nat.zero_add] at this
      exact this.symm
  · rw [hk2]
    exact hF
  · constructor
    · intro j hj
      beta_reduce
      rw [ushl1_iterate_two_pow e1 j (by omega)]
      refine ⟨(land_mask_two_pow h0).mpr (by omega), ?_⟩
      rw [← pow_succ]
      exact two_pow_lt_W (by omega)
    · beta_reduce
      rw [hk2]
      intro hne
      have := (land_mask_two_pow h0).mp hne
      omega
  · rw [hdiv, hk3l, hk3r]
    exact hI
  · rw [hdiv, hk3r]
  · rw [hdiv]
    have h16 : (65536 : Nat) = 2 ^ 16 := by norm_num
    constructor
    · intro j hj
      beta_reduce
      rw [ushr1_iterate_two_pow _ j (by omega), ushl1_iterate_two_pow e0 j (by omega), h16]
      refine ⟨(Nat.pow_lt_pow_iff_right (by decide)).mpr (by omega), ?_⟩
      rw [← pow_succ]
      exact two_pow_lt_W (by omega)
    · beta_reduce
      rw [hk3r, h16]
      exact not_lt.mpr (Nat.pow_le_pow_right (by decide) (min_le_right _ _))
  · unfold umul
    rw [hprod]
    exact Nat.mod_eq_of_lt (lt_of_le_of_lt hsize (two_pow_lt_W (le_refl _)))
  · rw [hprod]
    exact hsize
  · intro ha
    obtain ⟨lru, hInit, hb, hcol, hs, _⟩ := hacc ha
    exact ⟨lru, hInit, hb, hcol, by rw [hs, hb, hcol]⟩

/-- Witness for C20: capacity `2 ^ 63` with the `Collisions` option pointing at 3.  The
degree is rounded to 4 by two shifts, the bucket count `2 ^ 61` is capped and
`Collisions` is doubled 45 times, `Size` is `2 ^ 63`, and `Init` panics in `make`. -/
theorem init_terminates_without_overflow_witness :
    (2 ^ 63 ≤ 2 ^ 63 ∧ requested { LRUOpts.none with Collisions := some 3 } ≤ 2 ^ 63 ∧
      65 ≤ 70) ∧
    InitSizes 70 (2 ^ 63) { LRUOpts.none with Collisions := some 3 }
      = .ret (65536, 2 ^ 47, 2 ^ 63) ∧
    LRU.Init crc16Sample 70 (LRU.zero Nat) (2 ^ 63)
      { LRUOpts.none with Collisions := some 3 } = .crash ∧
    ∃ c m f b col k0 k1 k2 k3 : Nat,
      FactorOfTwo 70 (requested { LRUOpts.none with Collisions := some 3 }) = .ret c ∧
      ((requested { LRUOpts.none with Collisions := some 3 } ≠ 0 ∧
          (requested { LRUOpts.none with Collisions := some 3 } &&&
            usub (requested { LRUOpts.none with Collisions := some 3 }) 1) = 0 ∧
          c = requested { LRUOpts.none with Collisions := some 3 }) ∨
        (¬ (requested { LRUOpts.none with Collisions := some 3 } ≠ 0 ∧
            (requested { LRUOpts.none with Collisions := some 3 } &&&
              usub (requested { LRUOpts.none with Collisions := some 3 }) 1) = 0) ∧
          FactorOfTwoLoop (requested { LRUOpts.none with Collisions := some 3 }) 70 1
            = .ret (ushl1^[k0] 1) ∧
          c = ushl1^[k0] 1 ∧
          NoWrapRun (fun j => ushl1^[j] 1
            < requested { LRUOpts.none with Collisions := some 3 }) 1 k0)) ∧
      FactorOfTwo 70 (2 ^ 63) = .ret m ∧
      (((2 : Nat) ^ 63 ≠ 0 ∧ ((2 : Nat) ^ 63 &&& usub (2 ^ 63) 1) = 0 ∧ m = 2 ^ 63) ∨
        (¬ ((2 : Nat) ^ 63 ≠ 0 ∧ ((2 : Nat) ^ 63 &&& usub (2 ^ 63) 1) = 0) ∧
          FactorOfTwoLoop (2 ^ 63) 70 1 = .ret (ushl1^[k1] 1) ∧ m = ushl1^[k1] 1 ∧
          NoWrapRun (fun j => ushl1^[j] 1 < 2 ^ 63) 1 k1)) ∧
      FactorOfLoop c 70 m = .ret (ushl1^[k2] m) ∧ f = ushl1^[k2] m ∧
      NoWrapRun (fun j => (ushl1^[j] m &&& usub c 1) ≠ 0) m k2 ∧
      FactorOf 70 (2 ^ 63) c = .ret f ∧
      c ≠ 0 ∧
      InitLoop 70 (f / c) c = .ret (ushr1^[k3] (f / c), ushl1^[k3] c) ∧
      b = ushr1^[k3] (f / c) ∧ col = ushl1^[k3] c ∧
      NoWrapRun (fun j => 65536 < ushr1^[j] (f / c)) c k3 ∧
      InitSizes 70 (2 ^ 63) { LRUOpts.none with Collisions := some 3 }
        = .ret (b, col, b * col) ∧
      umul b col = b * col ∧ b * col ≤ 2 ^ 63 ∧
      (makeAccepts (b * col) = true →
        ∃ lru : LRU Nat, LRU.Init crc16Sample 70 (LRU.zero Nat) (2 ^ 63)
            { LRUOpts.none with Collisions := some 3 } = .ret lru ∧ lru.Buckets = b ∧
          lru.Collisions = col ∧ lru.Size = lru.Buckets * lru.Collisions) ∧
      (makeAccepts (b * col) = false →
        LRU.Init crc16Sample 70 (LRU.zero Nat) (2 ^ 63)
          { LRUOpts.none with Collisions := some 3 } = .crash) ∧
      makeAccepts (2 ^ 63) = false :=
  have hS : InitSizes 70 (2 ^ 63) { LRUOpts.none with Collisions := some 3 }
      = .ret (65536, 2 ^ 47, 2 ^ 63) :=
    (@InitSizes_of_exponents 70 (2 ^ 63) { LRUOpts.none with Collisions := some 3 }
      2 63 (by omega) (by omega) rfl
      (FactorOfTwo_two_pow (le_refl _) (by decide))).resolve_right
      (fun h => absurd h.2 (by decide))
  ⟨⟨le_refl _, by show 3 ≤ 2 ^ 63; norm_num, by decide⟩, hS,
    (Init_of_sizes crc16Sample 70 (LRU.zero Nat) (2 ^ 63)
      { LRUOpts.none with Collisions := some 3 } hS).2 (makeAccepts_of_le (le_refl _)),
    init_terminates_without_overflow crc16Sample (LRU.zero Nat) (2 ^ 63)
      { LRUOpts.none with Collisions := some 3 } (le_refl _)
      (by show 3 ≤ 2 ^ 63; norm_num) 70 (by decide)⟩

end GoArrayLRU
